import Mathlib

/-!
Verification of the roster & party state machine of the 진수운수 bus-matching
app (`App.tsx`, `types.ts`).

JavaScript strings are modeled as lists of characters (`Str`); JavaScript
numbers that the program uses as identifiers are modeled as `Nat`
(`Date.now()` timestamps, party counter), and the remaining numeric fields
(`power`, `relayCount`) as `Int`.  The stateful React component is modeled as
a record `AppState` holding the six `useState` cells that carry the business
state, with each event handler a pure function `AppState → AppState` (the
modal/alert cells are pure UI and are not part of the model).
-/

set_option maxHeartbeats 1000000

namespace Junsuya

/-- JS strings, modeled as lists of characters. -/
abbrev Str := List Char

/-- `Knight.status` from `types.ts`: `'waiting' | 'in-party' | 'off-duty'`. -/
inductive KStatus
  | waiting
  | inParty
  | offDuty
  deriving DecidableEq, Repr

/-- `Client.status` from `types.ts`: `'waiting' | 'in-party' | 'completed'`. -/
inductive CStatus
  | waiting
  | inParty
  | completed
  deriving DecidableEq, Repr

/-- `Knight` from `types.ts`. -/
structure Knight where
  id : Nat
  name : Str
  job : Str
  power : Int
  relayCount : Int
  status : KStatus
  deriving DecidableEq, Repr

/-- `Client` from `types.ts`. -/
structure Client where
  id : Nat
  name : Str
  job : Str
  power : Int
  notes : Str
  status : CStatus
  deriving DecidableEq, Repr

/-- `Party` from `types.ts`.  Member lists are snapshots taken at formation. -/
structure Party where
  id : Nat
  knights : List Knight
  clients : List Client
  isCompleted : Bool
  deriving DecidableEq, Repr

/-- The business state of the `App` component: the six `useState` cells that
survive across events (`knights`, `clients`, `parties`, `selectedKnightIds`,
`selectedClientIds`, `partyIdCounter`). -/
structure AppState where
  knights : List Knight
  clients : List Client
  parties : List Party
  selectedKnightIds : List Nat
  selectedClientIds : List Nat
  partyIdCounter : Nat
  deriving DecidableEq, Repr

/-- The initial state of the component: empty collections, counter 1. -/
def initState : AppState :=
  { knights := [], clients := [], parties := [],
    selectedKnightIds := [], selectedClientIds := [], partyIdCounter := 1 }

/-! ### JS string primitives used by import/export -/

/-- The characters that `String.prototype.trim` and `parseInt` skip
(the ASCII fragment of the ECMAScript WhiteSpace/LineTerminator classes). -/
def jsWhitespace (c : Char) : Bool :=
  c = ' ' || c = '\t' || c = '\n' || c = '\r' || c = '\x0b' || c = '\x0c'

/-- `String.prototype.trim`: drop leading and trailing whitespace. -/
def jsTrim (s : Str) : Str :=
  ((s.dropWhile jsWhitespace).reverse.dropWhile jsWhitespace).reverse

/-- `String.prototype.split` with a single-character separator:
`"".split(c) = [""]`, and a trailing separator yields a trailing `""`. -/
def splitOnChar (sep : Char) : Str → List Str
  | [] => [[]]
  | c :: cs =>
    match splitOnChar sep cs with
    | [] => [[]]
    | t :: ts => if c = sep then [] :: t :: ts else (c :: t) :: ts

/-- Decimal digit value of a character, if it is one. -/
def digitVal (c : Char) : Option Nat :=
  if 48 ≤ c.toNat ∧ c.toNat ≤ 57 then some (c.toNat - 48) else none

/-- Longest prefix of decimal digits, as digit values. -/
def takeDigits : Str → List Nat
  | [] => []
  | c :: cs =>
    match digitVal c with
    | some d => d :: takeDigits cs
    | none => []

/-- Value of a big-endian digit list. -/
def digitsVal (l : List Nat) : Nat := l.foldl (fun a d => 10 * a + d) 0

/-- Model of `parseInt(s, 10)`: skip leading whitespace, optional sign, then
the longest prefix of decimal digits; `none` models `NaN` (no digits). -/
def jsParseInt (s : Str) : Option Int :=
  match s.dropWhile jsWhitespace with
  | [] => none
  | c :: rest =>
    if c = '-' then
      match takeDigits rest with
      | [] => none
      | ds => some (-(digitsVal ds : Int))
    else if c = '+' then
      match takeDigits rest with
      | [] => none
      | ds => some ((digitsVal ds : Int))
    else
      match takeDigits (c :: rest) with
      | [] => none
      | ds => some ((digitsVal ds : Int))

/-- The character for a decimal digit value. -/
def digitChar (d : Nat) : Char :=
  match d with
  | 0 => '0' | 1 => '1' | 2 => '2' | 3 => '3' | 4 => '4'
  | 5 => '5' | 6 => '6' | 7 => '7' | 8 => '8' | _ => '9'

/-- Fuel-driven worker for `natDigitsLE` (structural recursion on the fuel so
that the definition evaluates inside the kernel). -/
def natDigitsLEAux : Nat → Nat → List Nat
  | 0, _ => []
  | _ + 1, 0 => []
  | fuel + 1, n + 1 => ((n + 1) % 10) :: natDigitsLEAux fuel ((n + 1) / 10)

/-- Little-endian decimal digits of a natural number (empty for 0). -/
def natDigitsLE (n : Nat) : List Nat := natDigitsLEAux n n

/-- Decimal string of a natural number (model of JS number-to-string for
non-negative integral values). -/
def natToStr (n : Nat) : Str :=
  if n = 0 then ['0'] else (natDigitsLE n).reverse.map digitChar

/-- Decimal string of an integer (model of JS number-to-string for integral
values, as produced by template-literal interpolation). -/
def intToStr (i : Int) : Str :=
  if i < 0 then '-' :: natToStr i.natAbs else natToStr i.natAbs

/-- `String.prototype.join` with a single-character separator. -/
def intercalateChar (sep : Char) : List Str → Str
  | [] => []
  | [x] => x
  | x :: y :: xs => x ++ sep :: intercalateChar sep (y :: xs)

/-! ### Event handlers (from `App.tsx`) -/

/-- `handleAddKnight` (App.tsx 339–349): fresh id from `Date.now()` (passed
in here), power scaled ×1000, `relayCount` 0, status `waiting`. -/
def handleAddKnight (id : Nat) (name job : Str) (power : Int) (s : AppState) :
    AppState :=
  { s with knights := s.knights ++
      [{ id := id, name := name, job := job, power := power * 1000,
         relayCount := 0, status := KStatus.waiting }] }

/-- `handleAddClient` (App.tsx 351–361). -/
def handleAddClient (id : Nat) (name job : Str) (power : Int) (notes : Str)
    (s : AppState) : AppState :=
  { s with clients := s.clients ++
      [{ id := id, name := name, job := job, power := power * 1000,
         notes := notes, status := CStatus.waiting }] }

/-- `handleUpdateItem` (App.tsx 363–378), knight branch: the updated record is
`{...itemToEdit, ...updatedData, power: updatedData.power * 1000}`, so id,
`relayCount` and status come from `itemToEdit`. -/
def handleUpdateKnight (item : Knight) (name job : Str) (power : Int)
    (s : AppState) : AppState :=
  { s with knights := s.knights.map (fun k =>
      if k.id == item.id then
        { item with name := name, job := job, power := power * 1000 }
      else k) }

/-- `handleUpdateItem` (App.tsx 363–378), client branch. -/
def handleUpdateClient (item : Client) (name job : Str) (power : Int)
    (notes : Str) (s : AppState) : AppState :=
  { s with clients := s.clients.map (fun c =>
      if c.id == item.id then
        { item with name := name, job := job, power := power * 1000, notes := notes }
      else c) }

/-- `handleDelete` (App.tsx 380–389), knight branch: unconditional removal,
selection sets untouched. -/
def handleDeleteKnight (id : Nat) (s : AppState) : AppState :=
  { s with knights := s.knights.filter (fun k => k.id != id) }

/-- `handleDelete` (App.tsx 380–389), client branch. -/
def handleDeleteClient (id : Nat) (s : AppState) : AppState :=
  { s with clients := s.clients.filter (fun c => c.id != id) }

/-- The `'knight' | 'client'` discriminator used by `toggleSelection`. -/
inductive ItemType
  | knight
  | client
  deriving DecidableEq, Repr

/-- The selection-set update inside `toggleSelection`:
`prev.includes(id) ? prev.filter(i => i !== id) : [...prev, id]`. -/
def toggleList (id : Nat) (l : List Nat) : List Nat :=
  if l.contains id then l.filter (fun i => i != id) else l ++ [id]

/-- `toggleSelection` (App.tsx 391–407): no-op if an entity with this id
exists and is not `waiting`; otherwise (including when no entity matches)
the id is toggled in the corresponding selection set. -/
def toggleSelection (id : Nat) (t : ItemType) (s : AppState) : AppState :=
  match t with
  | ItemType.knight =>
    match s.knights.find? (fun k => k.id == id) with
    | some k =>
      if k.status ≠ KStatus.waiting then s
      else { s with selectedKnightIds := toggleList id s.selectedKnightIds }
    | none => { s with selectedKnightIds := toggleList id s.selectedKnightIds }
  | ItemType.client =>
    match s.clients.find? (fun c => c.id == id) with
    | some c =>
      if c.status ≠ CStatus.waiting then s
      else { s with selectedClientIds := toggleList id s.selectedClientIds }
    | none => { s with selectedClientIds := toggleList id s.selectedClientIds }

/-- `handleCreateParty` (App.tsx 409–441): validation-error no-op when either
selection set is empty; otherwise snapshot the selected entities that exist,
append one `Party` with the current counter as id, mark the selected entities
`in-party`, bump the counter, clear both selections. -/
def handleCreateParty (s : AppState) : AppState :=
  if s.selectedKnightIds.isEmpty || s.selectedClientIds.isEmpty then s
  else
    { s with
      parties := s.parties ++
        [{ id := s.partyIdCounter,
           knights := s.knights.filter (fun k => s.selectedKnightIds.contains k.id),
           clients := s.clients.filter (fun c => s.selectedClientIds.contains c.id),
           isCompleted := false }],
      knights := s.knights.map (fun k =>
        if s.selectedKnightIds.contains k.id then { k with status := KStatus.inParty } else k),
      clients := s.clients.map (fun c =>
        if s.selectedClientIds.contains c.id then { c with status := CStatus.inParty } else c),
      partyIdCounter := s.partyIdCounter + 1,
      selectedKnightIds := [],
      selectedClientIds := [] }

/-- `handleCompleteMission` (App.tsx 443–463): no-op if no party has this id;
otherwise the snapshot knights still present get `relayCount + 1` and status
`waiting`, the snapshot clients still present get status `completed`, and the
party is removed. -/
def handleCompleteMission (partyId : Nat) (s : AppState) : AppState :=
  match s.parties.find? (fun p => p.id == partyId) with
  | none => s
  | some p =>
    { s with
      knights := s.knights.map (fun k =>
        if (p.knights.map (fun x => x.id)).contains k.id then
          { k with relayCount := k.relayCount + 1, status := KStatus.waiting }
        else k),
      clients := s.clients.map (fun c =>
        if (p.clients.map (fun x => x.id)).contains c.id then
          { c with status := CStatus.completed }
        else c),
      parties := s.parties.filter (fun q => q.id != partyId) }

/-- `handleToggleKnightStatus` (App.tsx 465–475): `waiting ↔ off-duty`, no-op
on an `in-party` knight or an unknown id. -/
def handleToggleKnightStatus (knightId : Nat) (s : AppState) : AppState :=
  { s with knights := s.knights.map (fun k =>
      if k.id == knightId then
        if k.status = KStatus.waiting then { k with status := KStatus.offDuty }
        else if k.status = KStatus.offDuty then { k with status := KStatus.waiting }
        else k
      else k) }

/-! ### Display sort and export/import (App.tsx 477–530, 547–550) -/

/-- The `statusOrder` table of `sortedKnights`. -/
def statusRank : KStatus → Nat
  | KStatus.waiting => 1
  | KStatus.inParty => 2
  | KStatus.offDuty => 3

/-- Stable insertion of a knight before the first strictly greater rank
(the element being inserted precedes all equal-ranked later elements). -/
def insertKnight (k : Knight) : List Knight → List Knight
  | [] => [k]
  | h :: t =>
    if statusRank h.status < statusRank k.status then h :: insertKnight k t
    else k :: h :: t

/-- `sortedKnights` (App.tsx 547–550): JS `Array.prototype.sort` is a stable
sort; with the comparator `statusOrder[a.status] - statusOrder[b.status]` its
result is the unique rank-sorted permutation that keeps insertion order within
each rank, computed here by a stable insertion sort. -/
def sortedKnights : List Knight → List Knight
  | [] => []
  | k :: t => insertKnight k (sortedKnights t)

/-- One line of the export: `` `${k.name}:${k.job}:${k.power}:${k.relayCount}` ``. -/
def knightLine (k : Knight) : Str :=
  k.name ++ ':' :: (k.job ++ ':' :: (intToStr k.power ++ ':' :: intToStr k.relayCount))

/-- The data string built by `handleExportKnights` (App.tsx 477–483):
one line per knight in display order, joined by `'\n'`. -/
def handleExportKnights (s : AppState) : Str :=
  intercalateChar '\n' ((sortedKnights s.knights).map knightLine)

/-- The per-line parse inside `handleImportKnights` (App.tsx 495–517): split
on `':'`; accept exactly 4 parts with truthy (non-empty) `name` and `job` and
`parseInt`-parsable `power` and `relayCount`; `name`/`job` are stored trimmed. -/
def parseKnightLine (line : Str) : Option (Str × Str × Int × Int) :=
  match splitOnChar ':' line with
  | [name, job, powerStr, relayStr] =>
    match jsParseInt powerStr, jsParseInt relayStr with
    | some power, some relay =>
      if name.isEmpty || job.isEmpty then none
      else some (jsTrim name, jsTrim job, power, relay)
    | _, _ => none
  | _ => none

/-- The knight built from an accepted import line (id is
`Date.now() + index`, status `off-duty`). -/
def mkImportedKnight (id : Nat) (f : Str × Str × Int × Int) : Knight :=
  { id := id, name := f.1, job := f.2.1, power := f.2.2.1,
    relayCount := f.2.2.2, status := KStatus.offDuty }

/-- The `lines.forEach` accumulation of `handleImportKnights`: accepted lines
become knights (id `now + index` over the full line index), malformed lines
are counted. -/
def importLines (now : Nat) : Nat → List Str → List Knight × Nat
  | _, [] => ([], 0)
  | idx, line :: rest =>
    let r := importLines now (idx + 1) rest
    match parseKnightLine line with
    | some f => (mkImportedKnight (now + idx) f :: r.1, r.2)
    | none => (r.1, r.2 + 1)

/-- `handleImportKnights` (App.tsx 485–530): empty (after trim) input is
rejected outright; otherwise the trimmed input is split into lines, each line
imported or counted as invalid, and the new knights appended.  Returns the
new state together with the reported counts (imported, skipped). -/
def handleImportKnights (now : Nat) (data : Str) (s : AppState) :
    AppState × Nat × Nat :=
  if (jsTrim data).isEmpty then (s, 0, 0)
  else
    let lines := splitOnChar '\n' (jsTrim data)
    let r := importLines now 0 lines
    (if r.1.length > 0 then { s with knights := s.knights ++ r.1 } else s,
     r.1.length, r.2)

/-! ### The command layer: one UI event per step -/

/-- The commands a user can issue through the UI, with their payloads
(`Date.now()` values are passed in as the `id`/`now` arguments). -/
inductive Op
  | addKnight (id : Nat) (name job : Str) (power : Int)
  | addClient (id : Nat) (name job : Str) (power : Int) (notes : Str)
  | updateKnight (item : Knight) (name job : Str) (power : Int)
  | updateClient (item : Client) (name job : Str) (power : Int) (notes : Str)
  | deleteKnight (id : Nat)
  | deleteClient (id : Nat)
  | toggleSel (id : Nat) (t : ItemType)
  | createParty
  | completeMission (pid : Nat)
  | toggleKnightStatus (id : Nat)
  | importKnights (now : Nat) (data : Str)

/-- Dispatch of a command to its handler. -/
def applyOp : Op → AppState → AppState
  | Op.addKnight id name job power, s => handleAddKnight id name job power s
  | Op.addClient id name job power notes, s =>
      handleAddClient id name job power notes s
  | Op.updateKnight item name job power, s =>
      handleUpdateKnight item name job power s
  | Op.updateClient item name job power notes, s =>
      handleUpdateClient item name job power notes s
  | Op.deleteKnight id, s => handleDeleteKnight id s
  | Op.deleteClient id, s => handleDeleteClient id s
  | Op.toggleSel id t, s => toggleSelection id t s
  | Op.createParty, s => handleCreateParty s
  | Op.completeMission pid, s => handleCompleteMission pid s
  | Op.toggleKnightStatus id, s => handleToggleKnightStatus id s
  | Op.importKnights now data, s => (handleImportKnights now data s).1

/-- Knight ids in a party snapshot. -/
def partyKnightIds (p : Party) : List Nat := p.knights.map (fun k => k.id)

/-- Client ids in a party snapshot. -/
def partyClientIds (p : Party) : List Nat := p.clients.map (fun c => c.id)

/-- A knight id never seen before: no current knight carries it, it is not in
the knight selection set, and it appears in no live party snapshot.  The
spec's identifier model ("generated from a monotonic time source …, never
reused") guarantees this for ids produced at add/import time. -/
def KnightIdFresh (id : Nat) (s : AppState) : Prop :=
  (∀ k ∈ s.knights, k.id ≠ id) ∧ id ∉ s.selectedKnightIds ∧
  (∀ p ∈ s.parties, id ∉ partyKnightIds p)

/-- Analogous freshness for client ids. -/
def ClientIdFresh (id : Nat) (s : AppState) : Prop :=
  (∀ c ∈ s.clients, c.id ≠ id) ∧ id ∉ s.selectedClientIds ∧
  (∀ p ∈ s.parties, id ∉ partyClientIds p)

/-- Side conditions under which the UI issues a command: add/import use
fresh, never-reused ids, and an edit targets an entity currently rendered
from its collection. -/
def WfOp : Op → AppState → Prop
  | Op.addKnight id _ _ _, s => KnightIdFresh id s
  | Op.addClient id _ _ _ _, s => ClientIdFresh id s
  | Op.updateKnight item _ _ _, s => item ∈ s.knights
  | Op.updateClient item _ _ _ _, s => item ∈ s.clients
  | Op.importKnights now data, s =>
      ∀ i < (splitOnChar '\n' (jsTrim data)).length, KnightIdFresh (now + i) s
  | _, _ => True

/-- States reachable from the initial state by UI commands. -/
inductive Reachable : AppState → Prop
  | init : Reachable initState
  | step (s : AppState) (op : Op) :
      Reachable s → WfOp op s → Reachable (applyOp op s)

/-- Pairwise disjointness of the knight snapshots of the live parties. -/
def snapshotsDisjointK : List Party → Bool
  | [] => true
  | p :: ps =>
    ps.all (fun q => (partyKnightIds p).all
      (fun id => !((partyKnightIds q).contains id))) && snapshotsDisjointK ps

/-- Pairwise disjointness of the client snapshots of the live parties. -/
def snapshotsDisjointC : List Party → Bool
  | [] => true
  | p :: ps =>
    ps.all (fun q => (partyClientIds p).all
      (fun id => !((partyClientIds q).contains id))) && snapshotsDisjointC ps

/-- The party-membership consistency of C8: every `in-party` knight/client of
the main collections lies in exactly one live party snapshot, and no id is in
the snapshots of two distinct live parties. -/
def partyConsistent (s : AppState) : Bool :=
  s.knights.all (fun k =>
    k.status != KStatus.inParty ||
      (s.parties.countP (fun p => (partyKnightIds p).contains k.id) == 1)) &&
  s.clients.all (fun c =>
    c.status != CStatus.inParty ||
      (s.parties.countP (fun p => (partyClientIds p).contains c.id) == 1)) &&
  (snapshotsDisjointK s.parties && snapshotsDisjointC s.parties)

/-- The knight status edges the spec allows for a given command, amended with
the reachable edge `off-duty → in-party` under `createParty` (a knight
selected while waiting can be toggled off duty and then put in a party). -/
def knightEdgeB (op : Op) (a b : KStatus) : Bool :=
  match op with
  | Op.toggleKnightStatus _ =>
      (a == KStatus.waiting && b == KStatus.offDuty) ||
      (a == KStatus.offDuty && b == KStatus.waiting)
  | Op.createParty =>
      (a == KStatus.waiting || a == KStatus.offDuty) && b == KStatus.inParty
  | Op.completeMission _ => a == KStatus.inParty && b == KStatus.waiting
  | _ => false

/-- The client status edges: `waiting → in-party` under `createParty`,
`in-party → completed` under `completeMission`, nothing else. -/
def clientEdgeB (op : Op) (a b : CStatus) : Bool :=
  match op with
  | Op.createParty => a == CStatus.waiting && b == CStatus.inParty
  | Op.completeMission _ => a == CStatus.inParty && b == CStatus.completed
  | _ => false

/-- The knight edge relation exactly as the claim states it (`createParty`
only from `waiting`); refuted by the counterexample trace. -/
def claimedKnightEdgeB (op : Op) (a b : KStatus) : Bool :=
  match op with
  | Op.toggleKnightStatus _ =>
      (a == KStatus.waiting && b == KStatus.offDuty) ||
      (a == KStatus.offDuty && b == KStatus.waiting)
  | Op.createParty => a == KStatus.waiting && b == KStatus.inParty
  | Op.completeMission _ => a == KStatus.inParty && b == KStatus.waiting
  | _ => false

/-- Decidable statement that one command step respects the (amended) status
state machine: entities present before and after the step either keep their
status or move along an allowed edge of that command; an edit never changes a
knight's `relayCount`; and the duty toggle is a no-op on every `in-party`
knight of the roster. -/
def statusStepOK (op : Op) (s : AppState) : Bool :=
  (s.knights.all (fun k => (applyOp op s).knights.all (fun k' =>
    k'.id != k.id ||
      (k'.status == k.status || knightEdgeB op k.status k'.status)))) &&
  (s.clients.all (fun c => (applyOp op s).clients.all (fun c' =>
    c'.id != c.id ||
      (c'.status == c.status || clientEdgeB op c.status c'.status)))) &&
  (match op with
   | Op.updateKnight _ _ _ _ =>
       s.knights.all (fun k => (applyOp op s).knights.all (fun k' =>
         k'.id != k.id || k'.relayCount == k.relayCount))
   | _ => true) &&
  (s.knights.all (fun k =>
    k.status != KStatus.inParty ||
      decide (handleToggleKnightStatus k.id s = s)))

/-- The inductive invariant of the state machine, strong enough to be
preserved by every well-formed command. -/
def Inv (s : AppState) : Prop :=
  (s.knights.map (fun k => k.id)).Nodup ∧
  (s.clients.map (fun c => c.id)).Nodup ∧
  (s.parties.map (fun p => p.id)).Nodup ∧
  (∀ p ∈ s.parties, p.id < s.partyIdCounter) ∧
  (∀ p ∈ s.parties, ∀ k ∈ s.knights, k.id ∈ partyKnightIds p →
    k.status = KStatus.inParty) ∧
  (∀ p ∈ s.parties, ∀ c ∈ s.clients, c.id ∈ partyClientIds p →
    c.status = CStatus.inParty) ∧
  (∀ k ∈ s.knights, k.status = KStatus.inParty →
    ∃ p ∈ s.parties, k.id ∈ partyKnightIds p) ∧
  (∀ c ∈ s.clients, c.status = CStatus.inParty →
    ∃ p ∈ s.parties, c.id ∈ partyClientIds p) ∧
  s.parties.Pairwise
    (fun p q => ∀ id ∈ partyKnightIds p, id ∉ partyKnightIds q) ∧
  s.parties.Pairwise
    (fun p q => ∀ id ∈ partyClientIds p, id ∉ partyClientIds q) ∧
  (∀ id ∈ s.selectedKnightIds, ∀ k ∈ s.knights, k.id = id →
    k.status ≠ KStatus.inParty) ∧
  (∀ id ∈ s.selectedClientIds, ∀ c ∈ s.clients, c.id = id →
    c.status = CStatus.waiting)

/-! ### Small example states used by witnesses and counterexamples -/

/-- Example knight (waiting). -/
def exKnight : Knight :=
  { id := 10, name := ['a'], job := ['j'], power := 1000, relayCount := 0,
    status := KStatus.waiting }

/-- Example client (waiting). -/
def exClient : Client :=
  { id := 20, name := ['c'], job := ['j'], power := 1000, notes := [],
    status := CStatus.waiting }

/-- Example state: one waiting knight and one waiting client, both selected. -/
def exSelState : AppState :=
  toggleSelection 20 ItemType.client (toggleSelection 10 ItemType.knight
    (handleAddClient 20 ['c'] ['j'] 1 []
      (handleAddKnight 10 ['a'] ['j'] 1 initState)))

/-- Example state with one live party: `exSelState` after forming the party. -/
def exPartyState : AppState := handleCreateParty exSelState

/-- Concrete state for C10: knight 10 was selected and then deleted, so id 10
is still selected though no knight exists; client 20 exists and is selected. -/
def exDanglingState : AppState :=
  toggleSelection 20 ItemType.client
    (handleAddClient 20 ['c'] ['j'] 1 []
      (handleDeleteKnight 10
        (toggleSelection 10 ItemType.knight
          (handleAddKnight 10 ['a'] ['j'] 1 initState))))

/-- Concrete trace state for the C5 counterexample: knight 10 was selected
while waiting and then toggled off duty (the duty button stays enabled for a
selected knight), so it is off-duty and still selected; client 20 is waiting
and selected. -/
def exOffDutySelState : AppState :=
  toggleSelection 20 ItemType.client
    (handleAddClient 20 ['c'] ['j'] 1 []
      (handleToggleKnightStatus 10
        (toggleSelection 10 ItemType.knight
          (handleAddKnight 10 ['a'] ['j'] 1 initState))))

/-- Concrete roster for the C3 counterexample: one knight whose name has a
trailing space. -/
def exTrailingState : AppState :=
  { initState with knights :=
      [{ id := 10, name := ['a', ' '], job := ['b'], power := 1000,
         relayCount := 0, status := KStatus.waiting }] }

/-- Value of a little-endian digit list (specification helper for
`natDigitsLE`). -/
def valLE : List Nat → Nat
  | [] => 0
  | d :: ds => d + 10 * valLE ds

/-- Big-endian decimal digit values of a natural number (`[0]` for 0);
`natToStr` prints exactly these digits. -/
def beDigits (n : Nat) : List Nat :=
  if n = 0 then [0] else (natDigitsLE n).reverse

/-- The knights produced by re-importing an exported roster: same `name`,
`job`, `power`, `relayCount`, fresh ids `now + index`, status `off-duty`. -/
def reimportedKnights (now : Nat) : Nat → List Knight → List Knight
  | _, [] => []
  | idx, k :: ks =>
    { id := now + idx, name := k.name, job := k.job, power := k.power,
      relayCount := k.relayCount, status := KStatus.offDuty } ::
      reimportedKnights now (idx + 1) ks

/-! ### C1 -/

/-- C1: `formParty` is all-or-nothing.  If either selection set is empty the
state is returned unchanged (no party, no status changes); otherwise exactly
one party is appended whose id is the current `partyIdCounter`, the counter is
incremented by one, every selected knight/client in the main collections gets
status `in-party` (all others are untouched), and both selection sets are
cleared. -/
theorem C1_formParty_all_or_nothing (s : AppState) :
    (s.selectedKnightIds = [] ∨ s.selectedClientIds = [] →
      handleCreateParty s = s) ∧
    (s.selectedKnightIds ≠ [] → s.selectedClientIds ≠ [] →
      (handleCreateParty s).parties = s.parties ++
        [{ id := s.partyIdCounter,
           knights := s.knights.filter (fun k => s.selectedKnightIds.contains k.id),
           clients := s.clients.filter (fun c => s.selectedClientIds.contains c.id),
           isCompleted := false }] ∧
      (handleCreateParty s).partyIdCounter = s.partyIdCounter + 1 ∧
      (handleCreateParty s).knights = s.knights.map (fun k =>
        if s.selectedKnightIds.contains k.id then { k with status := KStatus.inParty } else k) ∧
      (handleCreateParty s).clients = s.clients.map (fun c =>
        if s.selectedClientIds.contains c.id then { c with status := CStatus.inParty } else c) ∧
      (handleCreateParty s).selectedKnightIds = [] ∧
      (handleCreateParty s).selectedClientIds = []) := by
  constructor
  · intro h
    have : s.selectedKnightIds.isEmpty || s.selectedClientIds.isEmpty := by
      rcases h with h | h <;> simp [h]
    simp [handleCreateParty, this]
  · intro h1 h2
    have : (s.selectedKnightIds.isEmpty || s.selectedClientIds.isEmpty) = false := by
      simp [List.isEmpty_iff, h1, h2]
    simp [handleCreateParty, this]

/-- Witness for C1 at the concrete two-member state `exSelState`. -/
theorem C1_witness :
    (handleCreateParty exSelState).partyIdCounter = 2 ∧
    (handleCreateParty exSelState).selectedKnightIds = [] :=
  ⟨((C1_formParty_all_or_nothing exSelState).2 (by decide) (by decide)).2.1,
   ((C1_formParty_all_or_nothing exSelState).2 (by decide) (by decide)).2.2.2.2.1⟩

/-! ### C2 -/

/-- Unfolding of `handleCompleteMission` when no party matches. -/
theorem completeMission_of_find?_none (pid : Nat) (s : AppState)
    (h : s.parties.find? (fun p => p.id == pid) = none) :
    handleCompleteMission pid s = s := by
  simp [handleCompleteMission, h]

/-- Unfolding of `handleCompleteMission` when a party matches. -/
theorem completeMission_of_find?_some (pid : Nat) (s : AppState) (p : Party)
    (hp : s.parties.find? (fun p => p.id == pid) = some p) :
    handleCompleteMission pid s =
      { s with
        knights := s.knights.map (fun k =>
          if (p.knights.map (fun x => x.id)).contains k.id then
            { k with relayCount := k.relayCount + 1, status := KStatus.waiting }
          else k),
        clients := s.clients.map (fun c =>
          if (p.clients.map (fun x => x.id)).contains c.id then
            { c with status := CStatus.completed }
          else c),
        parties := s.parties.filter (fun q => q.id != pid) } := by
  simp [handleCompleteMission, hp]

/-- C2: `completeMission` on an existing party `p` gives every knight of the
roster whose id is in `p`'s knight snapshot (and only those) `relayCount + 1`
and status `waiting`, marks every client of the roster whose id is in `p`'s
client snapshot `completed`, removes `p` from the party collection, and leaves
the other state components unchanged; on a missing id it is a no-op. -/
theorem C2_completeMission_effect (s : AppState) (pid : Nat) :
    (s.parties.find? (fun p => p.id == pid) = none →
      handleCompleteMission pid s = s) ∧
    (∀ p, s.parties.find? (fun p => p.id == pid) = some p →
      (handleCompleteMission pid s).knights = s.knights.map (fun k =>
        if (p.knights.map (fun x => x.id)).contains k.id then
          { k with relayCount := k.relayCount + 1, status := KStatus.waiting }
        else k) ∧
      (handleCompleteMission pid s).clients = s.clients.map (fun c =>
        if (p.clients.map (fun x => x.id)).contains c.id then
          { c with status := CStatus.completed }
        else c) ∧
      (handleCompleteMission pid s).parties =
        s.parties.filter (fun q => q.id != pid) ∧
      p ∉ (handleCompleteMission pid s).parties ∧
      (handleCompleteMission pid s).selectedKnightIds = s.selectedKnightIds ∧
      (handleCompleteMission pid s).selectedClientIds = s.selectedClientIds ∧
      (handleCompleteMission pid s).partyIdCounter = s.partyIdCounter) := by
  constructor
  · intro h
    exact completeMission_of_find?_none pid s h
  · intro p hp
    have hpid := List.find?_some hp
    have heff := completeMission_of_find?_some pid s p hp
    refine ⟨by simp [heff], by simp [heff], by simp [heff], ?_, by simp [heff],
      by simp [heff], by simp [heff]⟩
    rw [heff]
    intro hmem
    have := (List.mem_filter.mp hmem).2
    simp only [bne_iff_ne, ne_eq] at this
    exact this (by simpa using hpid)

/-- Witness for C2 at the concrete one-party state `exPartyState`. -/
theorem C2_witness :
    (handleCompleteMission 1 exPartyState).parties = [] ∧
    (handleCompleteMission 1 exPartyState).knights =
      exPartyState.knights.map (fun k =>
        if [10].contains k.id then
          { k with relayCount := k.relayCount + 1, status := KStatus.waiting }
        else k) := by
  have h := (C2_completeMission_effect exPartyState 1).2
    { id := 1, knights := [exKnight], clients := [exClient],
      isCompleted := false } (by decide)
  exact ⟨by rw [h.2.2.1]; decide, h.1⟩

/-! ### C6 -/

/-- C6: calling `completeMission` twice with the same id is the same as
calling it once: after the first call the party is gone, so the second call
finds nothing and changes nothing (in particular no knight's `relayCount` is
incremented twice for the same mission). -/
theorem C6_completeMission_second_call_noop (s : AppState) (pid : Nat) :
    handleCompleteMission pid (handleCompleteMission pid s) =
      handleCompleteMission pid s := by
  cases h : s.parties.find? (fun p => p.id == pid) with
  | none =>
    have hs : handleCompleteMission pid s = s :=
      completeMission_of_find?_none pid s h
    rw [hs, hs]
  | some p =>
    have hparts : (handleCompleteMission pid s).parties =
        s.parties.filter (fun q => q.id != pid) := by
      rw [completeMission_of_find?_some pid s p h]
    apply completeMission_of_find?_none
    rw [hparts, List.find?_eq_none]
    intro q hq
    have := (List.mem_filter.mp hq).2
    simpa using this

/-! ### C9 -/

/-- C9: `toggleSelection` on an entity that exists in its collection with a
status other than `waiting` returns the state unchanged (both selection sets
and everything else). -/
theorem C9_toggleSelection_nonwaiting_noop (s : AppState) (id : Nat) :
    (∀ k, s.knights.find? (fun x => x.id == id) = some k →
      k.status ≠ KStatus.waiting → toggleSelection id ItemType.knight s = s) ∧
    (∀ c, s.clients.find? (fun x => x.id == id) = some c →
      c.status ≠ CStatus.waiting → toggleSelection id ItemType.client s = s) := by
  constructor
  · intro k hk hst
    simp [toggleSelection, hk, hst]
  · intro c hc hst
    simp [toggleSelection, hc, hst]

/-- Witness for C9: toggling the in-party knight and the in-party client of
`exPartyState` changes nothing. -/
theorem C9_witness :
    toggleSelection 10 ItemType.knight exPartyState = exPartyState ∧
    toggleSelection 20 ItemType.client exPartyState = exPartyState :=
  ⟨(C9_toggleSelection_nonwaiting_noop exPartyState 10).1
      { exKnight with status := KStatus.inParty } (by decide) (by decide),
   (C9_toggleSelection_nonwaiting_noop exPartyState 20).2
      { exClient with status := CStatus.inParty } (by decide) (by decide)⟩

/-! ### C10 -/

/-- C10 (implicit): the selection sets are not kept consistent with the
collections.  Deleting a knight or client never touches either selection set;
`toggleSelection` with an id matching no entity still toggles that id; and
consequently `formParty` can produce a party whose knight snapshot is empty
although both selection sets are non-empty (state `exDanglingState`). -/
theorem C10_selection_not_synced :
    (∀ s : AppState, ∀ id : Nat,
      ((handleDeleteKnight id s).selectedKnightIds = s.selectedKnightIds ∧
       (handleDeleteKnight id s).selectedClientIds = s.selectedClientIds) ∧
      ((handleDeleteClient id s).selectedKnightIds = s.selectedKnightIds ∧
       (handleDeleteClient id s).selectedClientIds = s.selectedClientIds)) ∧
    (∀ s : AppState, ∀ id : Nat,
      s.knights.find? (fun x => x.id == id) = none →
      (toggleSelection id ItemType.knight s).selectedKnightIds =
        toggleList id s.selectedKnightIds) ∧
    (∀ s : AppState, ∀ id : Nat,
      s.clients.find? (fun x => x.id == id) = none →
      (toggleSelection id ItemType.client s).selectedClientIds =
        toggleList id s.selectedClientIds) ∧
    (exDanglingState.selectedKnightIds ≠ [] ∧
     exDanglingState.selectedClientIds ≠ [] ∧
     (handleCreateParty exDanglingState).parties =
       [{ id := 1, knights := [],
          clients := [{ exClient with status := CStatus.waiting }],
          isCompleted := false }]) := by
  refine ⟨?_, ?_, ?_, by decide, by decide, by decide⟩
  · intro s id
    exact ⟨⟨rfl, rfl⟩, ⟨rfl, rfl⟩⟩
  · intro s id h
    simp [toggleSelection, h]
  · intro s id h
    simp [toggleSelection, h]

/-- Witness for C10: toggling the never-used id 99 on the empty state puts it
into the knight selection set. -/
theorem C10_witness :
    (toggleSelection 99 ItemType.knight initState).selectedKnightIds = [99] :=
  C10_selection_not_synced.2.1 initState 99 rfl

/-! ### C7 -/

/-- Every status rank is at least 1. -/
theorem one_le_statusRank (st : KStatus) : 1 ≤ statusRank st := by
  cases st <;> decide

/-- Inserting past a block of strictly smaller ranks. -/
theorem insertKnight_append_of_lt (k : Knight) (l1 l2 : List Knight)
    (h : ∀ x ∈ l1, statusRank x.status < statusRank k.status) :
    insertKnight k (l1 ++ l2) = l1 ++ insertKnight k l2 := by
  induction l1 with
  | nil => rfl
  | cons a t ih =>
    have ha : statusRank a.status < statusRank k.status :=
      h a (List.mem_cons_self a t)
    simp only [List.cons_append, insertKnight, if_pos ha, List.append_eq]
    rw [ih (fun x hx => h x (List.mem_cons_of_mem a hx))]

/-- Inserting before a list none of whose elements has strictly smaller
rank places the element in front. -/
theorem insertKnight_eq_cons (k : Knight) (l : List Knight)
    (h : ∀ x ∈ l, ¬ statusRank x.status < statusRank k.status) :
    insertKnight k l = k :: l := by
  cases l with
  | nil => rfl
  | cons a t =>
    have ha := h a (List.mem_cons_self a t)
    simp only [insertKnight, if_neg ha]

/-- C7: the displayed knight order is the roster grouped by status rank
`waiting(1) < in-party(2) < off-duty(3)`, insertion order preserved within
each rank, and the export emits one line `name:job:power:relayCount` per
knight (stored `power`/`relayCount` printed verbatim) in exactly that order. -/
theorem C7_display_and_export_order (ks : List Knight) :
    sortedKnights ks =
      ks.filter (fun k => statusRank k.status == 1) ++
      ks.filter (fun k => statusRank k.status == 2) ++
      ks.filter (fun k => statusRank k.status == 3) ∧
    (∀ s : AppState, handleExportKnights s =
      intercalateChar '\n' ((sortedKnights s.knights).map (fun k =>
        k.name ++ ':' :: (k.job ++ ':' ::
          (intToStr k.power ++ ':' :: intToStr k.relayCount))))) := by
  refine ⟨?_, fun s => rfl⟩
  induction ks with
  | nil => rfl
  | cons k t ih =>
    have mem_rank : ∀ (r : Nat) (x : Knight),
        x ∈ t.filter (fun k => statusRank k.status == r) →
        statusRank x.status = r := by
      intro r x hx
      have := (List.mem_filter.mp hx).2
      simpa using this
    simp only [sortedKnights, ih]
    cases hst : k.status with
    | waiting =>
      have hrank : statusRank k.status = 1 := by rw [hst]; rfl
      have hfront : insertKnight k
          (t.filter (fun k => statusRank k.status == 1) ++
           t.filter (fun k => statusRank k.status == 2) ++
           t.filter (fun k => statusRank k.status == 3)) =
          k :: (t.filter (fun k => statusRank k.status == 1) ++
           t.filter (fun k => statusRank k.status == 2) ++
           t.filter (fun k => statusRank k.status == 3)) := by
        apply insertKnight_eq_cons
        intro x _
        rw [hrank]
        exact Nat.not_lt.mpr (one_le_statusRank x.status)
      rw [hfront]
      simp [List.filter_cons, hrank]
    | inParty =>
      have hrank : statusRank k.status = 2 := by rw [hst]; rfl
      rw [List.append_assoc, insertKnight_append_of_lt k _ _ ?side1]
      case side1 =>
        intro x hx
        rw [mem_rank 1 x hx, hrank]
        decide
      rw [insertKnight_eq_cons k _ ?side2]
      case side2 =>
        intro x hx
        rcases List.mem_append.mp hx with hx2 | hx3
        · rw [mem_rank 2 x hx2, hrank]; decide
        · rw [mem_rank 3 x hx3, hrank]; decide
      simp [List.filter_cons, hrank]
    | offDuty =>
      have hrank : statusRank k.status = 3 := by rw [hst]; rfl
      rw [List.append_assoc, insertKnight_append_of_lt k _ _ ?side3]
      case side3 =>
        intro x hx
        rw [mem_rank 1 x hx, hrank]
        decide
      rw [insertKnight_append_of_lt k _ _ ?side4]
      case side4 =>
        intro x hx
        rw [mem_rank 2 x hx, hrank]
        decide
      rw [insertKnight_eq_cons k _ ?side5]
      case side5 =>
        intro x hx
        rw [mem_rank 3 x hx, hrank]
        decide
      simp [List.filter_cons, hrank]

/-! ### C4 -/

/-- Counts reported by the import loop: one knight per accepted line, one
skipped count per rejected line, no abort. -/
theorem importLines_counts (now : Nat) :
    ∀ (idx : Nat) (lines : List Str),
      (importLines now idx lines).1.length =
        (lines.filter (fun l => (parseKnightLine l).isSome)).length ∧
      (importLines now idx lines).2 =
        (lines.filter (fun l => (parseKnightLine l).isNone)).length := by
  intro idx lines
  induction lines generalizing idx with
  | nil => simp [importLines]
  | cons l rest ih =>
    cases hl : parseKnightLine l with
    | none =>
      simp only [importLines, hl, List.filter_cons]
      simp [hl, (ih (idx + 1)).1, (ih (idx + 1)).2]
    | some f =>
      simp only [importLines, hl, List.filter_cons]
      simp [hl, (ih (idx + 1)).1, (ih (idx + 1)).2]

/-- Shape of every knight produced by the import loop: status `off-duty` and
an id in the fresh range `[now + idx, now + idx + lines.length)`. -/
theorem importLines_mem (now : Nat) :
    ∀ (idx : Nat) (lines : List Str) (k : Knight),
      k ∈ (importLines now idx lines).1 →
      k.status = KStatus.offDuty ∧
      now + idx ≤ k.id ∧ k.id < now + idx + lines.length := by
  intro idx lines
  induction lines generalizing idx with
  | nil => intro k hk; simp [importLines] at hk
  | cons l rest ih =>
    intro k hk
    cases hl : parseKnightLine l with
    | none =>
      simp only [importLines, hl] at hk
      obtain ⟨h1, h2, h3⟩ := ih (idx + 1) k hk
      refine ⟨h1, by omega, ?_⟩
      simp only [List.length_cons]
      omega
    | some f =>
      simp only [importLines, hl, List.mem_cons] at hk
      rcases hk with hk | hk
      · subst hk
        refine ⟨rfl, Nat.le_refl _, ?_⟩
        simp only [mkImportedKnight, List.length_cons]
        omega
      · obtain ⟨h1, h2, h3⟩ := ih (idx + 1) k hk
        refine ⟨h1, by omega, ?_⟩
        simp only [List.length_cons]
        omega

/-- Acceptance direction of the per-line import check. -/
theorem parseKnightLine_accepts (line n j p r : Str)
    (heq : splitOnChar ':' line = [n, j, p, r])
    (hp : (jsParseInt p).isSome) (hr : (jsParseInt r).isSome)
    (hn : n ≠ []) (hj : j ≠ []) : (parseKnightLine line).isSome := by
  unfold parseKnightLine
  rw [heq]
  obtain ⟨pv, hpv⟩ := Option.isSome_iff_exists.mp hp
  obtain ⟨rv, hrv⟩ := Option.isSome_iff_exists.mp hr
  have h1 : n.isEmpty = false := by simpa [List.isEmpty_iff] using hn
  have h2 : j.isEmpty = false := by simpa [List.isEmpty_iff] using hj
  simp [hpv, hrv, h1, h2]

/-- Inversion of the per-line import check. -/
theorem parseKnightLine_isSome_spec (line : Str)
    (h : (parseKnightLine line).isSome) :
    ∃ n j p r, splitOnChar ':' line = [n, j, p, r] ∧
      (jsParseInt p).isSome ∧ (jsParseInt r).isSome ∧ n ≠ [] ∧ j ≠ [] := by
  unfold parseKnightLine at h
  split at h
  case _ n j p r heq =>
    split at h
    case _ pv rv hpv hrv =>
      split at h
      case _ hcond => simp at h
      case _ hcond =>
        rw [Bool.or_eq_true, not_or] at hcond
        refine ⟨n, j, p, r, heq, by rw [hpv]; rfl, by rw [hrv]; rfl, ?_, ?_⟩
        · simpa [List.isEmpty_iff] using hcond.1
        · simpa [List.isEmpty_iff] using hcond.2
    case _ hmatch => simp at h
  case _ hshape => simp at h

/-- C4 (amended): an import line is accepted — creating one knight with
status `off-duty` and fresh id `now + lineIndex` — iff splitting it on `':'`
yields exactly 4 fields whose `power` and `relayCount` parse under `parseInt`
and whose `name` and `job` are non-empty as raw (untrimmed) strings; every
other line only increments the skip count, and the import reports the number
imported and the number skipped.  (The original claim required `name`/`job`
to be non-empty after trimming; the code tests the untrimmed fields, see the
counterexample.) -/
theorem C4_import_line_acceptance :
    (∀ line : Str, (parseKnightLine line).isSome ↔
      ∃ name job powerStr relayStr,
        splitOnChar ':' line = [name, job, powerStr, relayStr] ∧
        (jsParseInt powerStr).isSome ∧ (jsParseInt relayStr).isSome ∧
        name ≠ [] ∧ job ≠ []) ∧
    (∀ (now idx : Nat) (lines : List Str),
      (importLines now idx lines).1.length =
        (lines.filter (fun l => (parseKnightLine l).isSome)).length ∧
      (importLines now idx lines).2 =
        (lines.filter (fun l => (parseKnightLine l).isNone)).length) ∧
    (∀ (now idx : Nat) (lines : List Str) (k : Knight),
      k ∈ (importLines now idx lines).1 →
      k.status = KStatus.offDuty ∧
      now + idx ≤ k.id ∧ k.id < now + idx + lines.length) := by
  refine ⟨?_, fun now idx lines => importLines_counts now idx lines,
    fun now idx lines k hk => importLines_mem now idx lines k hk⟩
  intro line
  constructor
  · exact parseKnightLine_isSome_spec line
  · rintro ⟨n, j, p, r, heq, hp, hr, hn, hj⟩
    exact parseKnightLine_accepts line n j p r heq hp hr hn hj

/-- Witness for C4: importing the two-good-one-bad batch of §8 of the spec
(`"A:B:1000:2\nBAD_LINE\nC:D:3000:0"`) reports 2 imported and 1 skipped. -/
theorem C4_witness :
    (importLines 100 0
      [['A', ':', 'B', ':', '1', '0', '0', '0', ':', '2'],
       ['B', 'A', 'D', '_', 'L', 'I', 'N', 'E'],
       ['C', ':', 'D', ':', '3', '0', '0', '0', ':', '0']]).1.length = 2 ∧
    (importLines 100 0
      [['A', ':', 'B', ':', '1', '0', '0', '0', ':', '2'],
       ['B', 'A', 'D', '_', 'L', 'I', 'N', 'E'],
       ['C', ':', 'D', ':', '3', '0', '0', '0', ':', '0']]).2 = 1 := by
  have h := C4_import_line_acceptance.2.1 100 0
    [['A', ':', 'B', ':', '1', '0', '0', '0', ':', '2'],
     ['B', 'A', 'D', '_', 'L', 'I', 'N', 'E'],
     ['C', ':', 'D', ':', '3', '0', '0', '0', ':', '0']]
  exact ⟨by rw [h.1]; decide, by rw [h.2]; decide⟩

/-- C4 counterexample: in the import data `"x:y:5:6\n :j:1:2"` the second
line has a whitespace-only `name` field — empty after trimming, so the claim
requires that line to be skipped — yet the code accepts it (it tests
truthiness of the untrimmed field): the import reports 2 imported, 0 skipped,
and stores a knight whose name is the empty string. -/
theorem C4_counterexample :
    (parseKnightLine [' ', ':', 'j', ':', '1', ':', '2']).isSome = true ∧
    jsTrim [' '] = [] ∧
    (handleImportKnights 100
      ['x', ':', 'y', ':', '5', ':', '6', '\n',
       ' ', ':', 'j', ':', '1', ':', '2'] initState).2 = (2, 0) ∧
    (handleImportKnights 100
      ['x', ':', 'y', ':', '5', ':', '6', '\n',
       ' ', ':', 'j', ':', '1', ':', '2'] initState).1.knights =
      [{ id := 100, name := ['x'], job := ['y'], power := 5, relayCount := 6,
         status := KStatus.offDuty },
       { id := 101, name := [], job := ['j'], power := 1, relayCount := 2,
         status := KStatus.offDuty }] := by
  refine ⟨?_, ?_, ?_, ?_⟩ <;> decide

/-! ### C3: decimal print/parse round-trip -/

/-- Fuel irrelevance for `natDigitsLEAux`. -/
theorem natDigitsLEAux_congr :
    ∀ (f1 n : Nat), n ≤ f1 → ∀ f2, n ≤ f2 →
      natDigitsLEAux f1 n = natDigitsLEAux f2 n := by
  intro f1
  induction f1 with
  | zero =>
    intro n hn f2 _
    interval_cases n
    cases f2 <;> rfl
  | succ f ih =>
    intro n hn f2 h2
    cases n with
    | zero => cases f2 <;> rfl
    | succ m =>
      cases f2 with
      | zero => omega
      | succ g =>
        have hdiv : (m + 1) / 10 < m + 1 :=
          Nat.div_lt_self (Nat.succ_pos m) (by decide)
        simp only [natDigitsLEAux]
        rw [ih ((m + 1) / 10) (by omega) g (by omega)]

/-- Unfolding of `natDigitsLE` at a successor. -/
theorem natDigitsLE_succ (m : Nat) :
    natDigitsLE (m + 1) = ((m + 1) % 10) :: natDigitsLE ((m + 1) / 10) := by
  have hdiv : (m + 1) / 10 < m + 1 :=
    Nat.div_lt_self (Nat.succ_pos m) (by decide)
  show natDigitsLEAux (m + 1) (m + 1) = _
  simp only [natDigitsLEAux]
  unfold natDigitsLE
  rw [natDigitsLEAux_congr m ((m + 1) / 10) (by omega) ((m + 1) / 10)
    (Nat.le_refl _)]

/-- All digits produced by `natDigitsLE` are decimal digits. -/
theorem natDigitsLE_lt_ten : ∀ n, ∀ d ∈ natDigitsLE n, d < 10 := by
  intro n
  induction n using Nat.strong_induction_on with
  | _ n ih =>
    cases n with
    | zero => intro d hd; simp [natDigitsLE, natDigitsLEAux] at hd
    | succ m =>
      rw [natDigitsLE_succ]
      intro d hd
      rcases List.mem_cons.mp hd with h | h
      · subst h; exact Nat.mod_lt _ (by decide)
      · exact ih ((m + 1) / 10) (Nat.div_lt_self (Nat.succ_pos m) (by decide)) d h

/-- `valLE` recovers the number from its little-endian digits. -/
theorem valLE_natDigitsLE : ∀ n, valLE (natDigitsLE n) = n := by
  intro n
  induction n using Nat.strong_induction_on with
  | _ n ih =>
    cases n with
    | zero => rfl
    | succ m =>
      rw [natDigitsLE_succ, valLE,
        ih ((m + 1) / 10) (Nat.div_lt_self (Nat.succ_pos m) (by decide))]
      omega

/-- `digitsVal` of the reversed digit list is `valLE`. -/
theorem digitsVal_reverse (l : List Nat) : digitsVal l.reverse = valLE l := by
  unfold digitsVal
  rw [List.foldl_reverse]
  induction l with
  | nil => rfl
  | cons d ds ih =>
    simp only [List.foldr_cons, valLE, ih]
    omega

/-- `beDigits` is never empty. -/
theorem beDigits_ne_nil (n : Nat) : beDigits n ≠ [] := by
  unfold beDigits
  split
  · simp
  · case _ h =>
    cases n with
    | zero => exact absurd rfl h
    | succ m => rw [natDigitsLE_succ]; simp

/-- `beDigits` produces decimal digits. -/
theorem beDigits_lt_ten (n : Nat) : ∀ d ∈ beDigits n, d < 10 := by
  unfold beDigits
  split
  · intro d hd
    simp at hd
    omega
  · intro d hd
    exact natDigitsLE_lt_ten n d (List.mem_reverse.mp hd)

/-- `digitsVal` recovers the number from `beDigits`. -/
theorem digitsVal_beDigits (n : Nat) : digitsVal (beDigits n) = n := by
  unfold beDigits
  split
  · case _ h => subst h; rfl
  · rw [digitsVal_reverse, valLE_natDigitsLE]

/-- `natToStr` prints exactly the `beDigits`. -/
theorem natToStr_eq_map (n : Nat) : natToStr n = (beDigits n).map digitChar := by
  unfold natToStr beDigits
  split <;> rfl

/-- Character facts about decimal digit characters. -/
theorem digitChar_facts (d : Nat) (h : d < 10) :
    digitVal (digitChar d) = some d ∧ jsWhitespace (digitChar d) = false ∧
    digitChar d ≠ ':' ∧ digitChar d ≠ '\n' ∧ digitChar d ≠ '-' ∧
    digitChar d ≠ '+' := by
  interval_cases d <;> exact ⟨by decide, by decide, by decide, by decide,
    by decide, by decide⟩

/-- `takeDigits` consumes a pure digit string completely. -/
theorem takeDigits_map (l : List Nat) (h : ∀ d ∈ l, d < 10) :
    takeDigits (l.map digitChar) = l := by
  induction l with
  | nil => rfl
  | cons d ds ih =>
    simp only [List.map_cons, takeDigits]
    rw [(digitChar_facts d (h d (List.mem_cons_self d ds))).1]
    rw [ih (fun x hx => h x (List.mem_cons_of_mem d hx))]

/-- Parsing the printed form of a natural number gives it back. -/
theorem jsParseInt_natToStr (n : Nat) :
    jsParseInt (natToStr n) = some (n : Int) := by
  rcases hbe : beDigits n with _ | ⟨d, ds⟩
  · exact absurd hbe (beDigits_ne_nil n)
  have hd : d < 10 := beDigits_lt_ten n d (by rw [hbe]; exact List.mem_cons_self d ds)
  have hds : ∀ x ∈ d :: ds, x < 10 := by rw [← hbe]; exact beDigits_lt_ten n
  have hmap : natToStr n = digitChar d :: ds.map digitChar := by
    rw [natToStr_eq_map, hbe, List.map_cons]
  have hws : jsWhitespace (digitChar d) = false := (digitChar_facts d hd).2.1
  have hneg : ¬(digitChar d = '-') := (digitChar_facts d hd).2.2.2.2.1
  have hpos : ¬(digitChar d = '+') := (digitChar_facts d hd).2.2.2.2.2
  have htake : takeDigits (digitChar d :: ds.map digitChar) = d :: ds := by
    have := takeDigits_map (d :: ds) hds
    simpa [List.map_cons] using this
  unfold jsParseInt
  rw [hmap, List.dropWhile_cons, hws]
  simp only [Bool.false_eq_true, if_false, if_neg hneg, if_neg hpos, htake]
  rw [show digitsVal (d :: ds) = n by rw [← hbe]; exact digitsVal_beDigits n]

/-- Parsing the printed form of an integer gives it back. -/
theorem jsParseInt_intToStr (i : Int) : jsParseInt (intToStr i) = some i := by
  unfold intToStr
  split
  · case _ hlt =>
    rcases hbe : beDigits i.natAbs with _ | ⟨d, ds⟩
    · exact absurd hbe (beDigits_ne_nil _)
    have hds : ∀ x ∈ d :: ds, x < 10 := by rw [← hbe]; exact beDigits_lt_ten _
    have hmap : natToStr i.natAbs = digitChar d :: ds.map digitChar := by
      rw [natToStr_eq_map, hbe, List.map_cons]
    have htake : takeDigits (digitChar d :: ds.map digitChar) = d :: ds := by
      have := takeDigits_map (d :: ds) hds
      simpa [List.map_cons] using this
    have hval : digitsVal (d :: ds) = i.natAbs := by
      rw [← hbe]; exact digitsVal_beDigits _
    unfold jsParseInt
    rw [List.dropWhile_cons]
    have hwsm : jsWhitespace '-' = false := by decide
    rw [hwsm]
    simp only [Bool.false_eq_true, if_false, if_pos rfl, hmap, htake, hval]
    rw [Int.ofNat_natAbs_of_nonpos (le_of_lt hlt), neg_neg]
    simp
  · case _ hge =>
    rw [jsParseInt_natToStr, Int.natAbs_of_nonneg (not_lt.mp hge)]

/-- Every character of `natToStr` is harmless: not whitespace, not `':'`,
not `'\n'`. -/
theorem natToStr_chars (n : Nat) : ∀ c ∈ natToStr n,
    jsWhitespace c = false ∧ c ≠ ':' ∧ c ≠ '\n' := by
  rw [natToStr_eq_map]
  intro c hc
  obtain ⟨d, hd, rfl⟩ := List.mem_map.mp hc
  have hlt := beDigits_lt_ten n d hd
  exact ⟨(digitChar_facts d hlt).2.1, (digitChar_facts d hlt).2.2.1,
    (digitChar_facts d hlt).2.2.2.1⟩

/-- Every character of `intToStr` is harmless. -/
theorem intToStr_chars (i : Int) : ∀ c ∈ intToStr i,
    jsWhitespace c = false ∧ c ≠ ':' ∧ c ≠ '\n' := by
  unfold intToStr
  split
  · intro c hc
    rcases List.mem_cons.mp hc with h | h
    · subst h; exact ⟨by decide, by decide, by decide⟩
    · exact natToStr_chars _ c h
  · exact natToStr_chars _

/-- `natToStr` is never empty. -/
theorem natToStr_ne_nil (n : Nat) : natToStr n ≠ [] := by
  rw [natToStr_eq_map]
  have := beDigits_ne_nil n
  simp [this]

/-- `intToStr` is never empty. -/
theorem intToStr_ne_nil (i : Int) : intToStr i ≠ [] := by
  unfold intToStr
  split
  · simp
  · exact natToStr_ne_nil _

/-- `splitOnChar` never returns an empty list of parts. -/
theorem splitOnChar_ne_nil (sep : Char) : ∀ s : Str, splitOnChar sep s ≠ [] := by
  intro s
  induction s with
  | nil => simp [splitOnChar]
  | cons c cs ih =>
    simp only [splitOnChar]
    rcases h : splitOnChar sep cs with _ | ⟨t, ts⟩
    · exact absurd h ih
    · by_cases hc : c = sep <;> simp [hc]

/-- Splitting a separator-free string yields that single part. -/
theorem splitOnChar_eq_single (sep : Char) :
    ∀ s : Str, sep ∉ s → splitOnChar sep s = [s] := by
  intro s
  induction s with
  | nil => intro _; rfl
  | cons c cs ih =>
    intro h
    have hc : ¬(c = sep) := fun he => h (by rw [he]; exact List.mem_cons_self _ _)
    have hcs : sep ∉ cs := fun hm => h (List.mem_cons_of_mem c hm)
    simp only [splitOnChar, ih hcs, if_neg hc]

/-- Splitting past a separator-free chunk followed by the separator. -/
theorem splitOnChar_append (sep : Char) :
    ∀ (l rest : Str), sep ∉ l →
      splitOnChar sep (l ++ sep :: rest) = l :: splitOnChar sep rest := by
  intro l rest hl
  induction l with
  | nil =>
    simp only [List.nil_append, splitOnChar]
    rcases h : splitOnChar sep rest with _ | ⟨t, ts⟩
    · exact absurd h (splitOnChar_ne_nil sep rest)
    · simp
  | cons c cs ih =>
    have hc : ¬(c = sep) := fun he => hl (by rw [he]; exact List.mem_cons_self _ _)
    have hcs : sep ∉ cs := fun hm => hl (List.mem_cons_of_mem c hm)
    simp only [List.cons_append, splitOnChar, List.append_eq, ih hcs, if_neg hc]

/-- `splitOnChar` inverts `intercalateChar` on separator-free parts. -/
theorem splitOnChar_intercalateChar (sep : Char) :
    ∀ ls : List Str, ls ≠ [] → (∀ l ∈ ls, sep ∉ l) →
      splitOnChar sep (intercalateChar sep ls) = ls := by
  intro ls
  induction ls with
  | nil => intro h; exact absurd rfl h
  | cons x xs ih =>
    intro _ hfree
    cases xs with
    | nil =>
      exact splitOnChar_eq_single sep x (hfree x (List.mem_cons_self x []))
    | cons y ys =>
      have : intercalateChar sep (x :: y :: ys) =
          x ++ sep :: intercalateChar sep (y :: ys) := rfl
      rw [this, splitOnChar_append sep x _ (hfree x (List.mem_cons_self _ _)),
        ih (by simp) (fun l hl => hfree l (List.mem_cons_of_mem x hl))]

/-- `intercalateChar` of a list whose first part is non-empty is non-empty. -/
theorem intercalateChar_ne_nil (sep : Char) (x : Str) (xs : List Str)
    (hx : x ≠ []) : intercalateChar sep (x :: xs) ≠ [] := by
  cases xs with
  | nil => exact hx
  | cons y ys =>
    show x ++ sep :: intercalateChar sep (y :: ys) ≠ []
    simp [hx]

/-- The head of an intercalation is the head of its first part. -/
theorem head?_intercalateChar (sep : Char) (x : Str) (xs : List Str)
    (hx : x ≠ []) : (intercalateChar sep (x :: xs)).head? = x.head? := by
  cases xs with
  | nil => rfl
  | cons y ys =>
    show (x ++ sep :: intercalateChar sep (y :: ys)).head? = x.head?
    exact List.head?_append_of_ne_nil _ hx

/-- The last character of an intercalation comes from one of the parts. -/
theorem getLast?_intercalateChar (sep : Char) :
    ∀ (xs : List Str) (x : Str), x ≠ [] → (∀ l ∈ x :: xs, l ≠ []) →
      ∃ y ∈ x :: xs, (intercalateChar sep (x :: xs)).getLast? = y.getLast? := by
  intro xs
  induction xs with
  | nil =>
    intro x hx _
    exact ⟨x, List.mem_cons_self x [], rfl⟩
  | cons y ys ih =>
    intro x hx hall
    have hy : y ≠ [] := hall y (List.mem_cons_of_mem x (List.mem_cons_self y ys))
    obtain ⟨z, hz, hzl⟩ := ih y hy (fun l hl => hall l (List.mem_cons_of_mem x hl))
    refine ⟨z, List.mem_cons_of_mem x hz, ?_⟩
    show (x ++ sep :: intercalateChar sep (y :: ys)).getLast? = z.getLast?
    rw [List.getLast?_append_of_ne_nil x (by simp)]
    have : sep :: intercalateChar sep (y :: ys) =
        [sep] ++ intercalateChar sep (y :: ys) := rfl
    rw [this, List.getLast?_append_of_ne_nil [sep]
      (intercalateChar_ne_nil sep y ys hy), hzl]

/-! ### C3: trim behaviour -/

/-- A `dropWhile` that preserves length is the identity. -/
theorem dropWhile_eq_self_of_length (p : Char → Bool) :
    ∀ l : Str, (l.dropWhile p).length = l.length → l.dropWhile p = l := by
  intro l h
  cases l with
  | nil => rfl
  | cons c t =>
    rw [List.dropWhile_cons] at h ⊢
    by_cases hc : p c = true
    · rw [if_pos hc] at h
      have hle := (List.dropWhile_suffix (l := t) p).length_le
      simp only [List.length_cons] at h
      omega
    · rw [if_neg hc]

/-- A fixed point of `dropWhile` has a head not satisfying the predicate. -/
theorem head_false_of_dropWhile_eq_self (p : Char → Bool) (l : Str)
    (h : l.dropWhile p = l) : ∀ c, l.head? = some c → p c = false := by
  intro c hc
  cases l with
  | nil => cases hc
  | cons a t =>
    have ha : a = c := by simpa using hc
    subst ha
    rw [List.dropWhile_cons] at h
    by_cases hp : p a = true
    · rw [if_pos hp] at h
      have hle := (List.dropWhile_suffix (l := t) p).length_le
      have : (t.dropWhile p).length = t.length + 1 := by rw [h]; rfl
      omega
    · simpa using hp

/-- A string fixed by `jsTrim` is fixed by both one-sided trims. -/
theorem jsTrim_parts (s : Str) (h : jsTrim s = s) :
    s.dropWhile jsWhitespace = s ∧
    s.reverse.dropWhile jsWhitespace = s.reverse := by
  have len1 : (s.dropWhile jsWhitespace).length ≤ s.length :=
    (List.dropWhile_suffix jsWhitespace).length_le
  have len2 : ((s.dropWhile jsWhitespace).reverse.dropWhile jsWhitespace).length ≤
      (s.dropWhile jsWhitespace).length := by
    have := (List.dropWhile_suffix (l := (s.dropWhile jsWhitespace).reverse)
      jsWhitespace).length_le
    simpa using this
  have hlen : (jsTrim s).length = s.length := by rw [h]
  have hlen2 : (jsTrim s).length =
      ((s.dropWhile jsWhitespace).reverse.dropWhile jsWhitespace).length := by
    simp [jsTrim]
  have hu : (s.dropWhile jsWhitespace).length = s.length := by omega
  have h1 : s.dropWhile jsWhitespace = s := dropWhile_eq_self_of_length _ s hu
  have hv : (s.reverse.dropWhile jsWhitespace).length = s.reverse.length := by
    rw [h1] at hlen2
    simp only [List.length_reverse]
    omega
  exact ⟨h1, dropWhile_eq_self_of_length _ s.reverse hv⟩

/-- A non-empty string fixed by `jsTrim` starts with non-whitespace. -/
theorem head_not_ws_of_jsTrim (s : Str) (h : jsTrim s = s) :
    ∀ c, s.head? = some c → jsWhitespace c = false :=
  head_false_of_dropWhile_eq_self jsWhitespace s (jsTrim_parts s h).1

/-- A non-empty string fixed by `jsTrim` ends with non-whitespace. -/
theorem last_not_ws_of_jsTrim (s : Str) (h : jsTrim s = s) :
    ∀ c, s.getLast? = some c → jsWhitespace c = false := by
  intro c hc
  exact head_false_of_dropWhile_eq_self jsWhitespace s.reverse
    (jsTrim_parts s h).2 c (by rw [List.head?_reverse]; exact hc)

/-- Sufficient condition for `jsTrim` to be the identity: non-whitespace
first and last characters. -/
theorem jsTrim_eq_self_of (s : Str)
    (hh : ∀ c, s.head? = some c → jsWhitespace c = false)
    (hl : ∀ c, s.getLast? = some c → jsWhitespace c = false) :
    jsTrim s = s := by
  cases s with
  | nil => rfl
  | cons a t =>
    have h1 : (a :: t).dropWhile jsWhitespace = a :: t := by
      rw [List.dropWhile_cons, hh a rfl]
      simp
    have hrev : (a :: t).reverse.dropWhile jsWhitespace = (a :: t).reverse := by
      rcases hr : (a :: t).reverse with _ | ⟨b, u⟩
      · exact absurd hr (by simp)
      · have hb : (a :: t).getLast? = some b := by
          rw [← List.head?_reverse, hr]; rfl
        rw [List.dropWhile_cons, hl b hb]
        simp
    unfold jsTrim
    rw [h1, hrev, List.reverse_reverse]

/-! ### C3: putting the round trip together -/

/-- Parsing an exported line recovers the knight's fields, for benign
`name`/`job` (non-empty, colon-free, fixed by trim). -/
theorem parseKnightLine_knightLine (k : Knight)
    (hn1 : k.name ≠ []) (hj1 : k.job ≠ [])
    (hn2 : ':' ∉ k.name) (hj2 : ':' ∉ k.job)
    (hn3 : jsTrim k.name = k.name) (hj3 : jsTrim k.job = k.job) :
    parseKnightLine (knightLine k) =
      some (k.name, k.job, k.power, k.relayCount) := by
  have hsp : splitOnChar ':' (knightLine k) =
      [k.name, k.job, intToStr k.power, intToStr k.relayCount] := by
    have heq : knightLine k = intercalateChar ':'
        [k.name, k.job, intToStr k.power, intToStr k.relayCount] := rfl
    rw [heq]
    apply splitOnChar_intercalateChar
    · simp
    · intro l hl
      simp only [List.mem_cons, List.not_mem_nil, or_false] at hl
      rcases hl with rfl | rfl | rfl | rfl
      · exact hn2
      · exact hj2
      · intro hc; exact ((intToStr_chars k.power ':' hc).2.1) rfl
      · intro hc; exact ((intToStr_chars k.relayCount ':' hc).2.1) rfl
  have he1 : k.name.isEmpty = false := by simpa [List.isEmpty_iff] using hn1
  have he2 : k.job.isEmpty = false := by simpa [List.isEmpty_iff] using hj1
  unfold parseKnightLine
  rw [hsp]
  simp [jsParseInt_intToStr, he1, he2, hn3, hj3]

/-- The import loop on a list of benign exported lines: every line is
accepted, none skipped. -/
theorem importLines_map_knightLine (now : Nat) :
    ∀ (idx : Nat) (ks : List Knight),
      (∀ k ∈ ks, parseKnightLine (knightLine k) =
        some (k.name, k.job, k.power, k.relayCount)) →
      importLines now idx (ks.map knightLine) =
        (reimportedKnights now idx ks, 0) := by
  intro idx ks
  induction ks generalizing idx with
  | nil => intro _; rfl
  | cons k t ih =>
    intro h
    have hk := h k (List.mem_cons_self k t)
    simp only [List.map_cons, importLines, hk]
    rw [ih (idx + 1) (fun x hx => h x (List.mem_cons_of_mem k hx))]
    rfl

/-- Length of the re-import image. -/
theorem reimportedKnights_length (now : Nat) :
    ∀ (idx : Nat) (l : List Knight),
      (reimportedKnights now idx l).length = l.length := by
  intro idx l
  induction l generalizing idx with
  | nil => rfl
  | cons k t ih => simp [reimportedKnights, ih]

/-- Membership in `insertKnight`. -/
theorem mem_insertKnight (x k : Knight) (l : List Knight) :
    x ∈ insertKnight k l ↔ x = k ∨ x ∈ l := by
  induction l with
  | nil => simp [insertKnight]
  | cons h t ih =>
    simp only [insertKnight]
    split <;> simp only [List.mem_cons, ih] <;> tauto

/-- The display sort is a permutation: same members. -/
theorem mem_sortedKnights (x : Knight) (l : List Knight) :
    x ∈ sortedKnights l ↔ x ∈ l := by
  induction l with
  | nil => simp [sortedKnights]
  | cons k t ih => simp [sortedKnights, mem_insertKnight, ih]

/-- `insertKnight` adds one element. -/
theorem length_insertKnight (k : Knight) (l : List Knight) :
    (insertKnight k l).length = l.length + 1 := by
  induction l with
  | nil => rfl
  | cons h t ih =>
    simp only [insertKnight]
    split
    · simp [ih]
    · simp

/-- The display sort preserves length. -/
theorem length_sortedKnights (l : List Knight) :
    (sortedKnights l).length = l.length := by
  induction l with
  | nil => rfl
  | cons k t ih => simp [sortedKnights, length_insertKnight, ih]

/-- The display sort of a non-empty roster is non-empty. -/
theorem sortedKnights_ne_nil (l : List Knight) (h : l ≠ []) :
    sortedKnights l ≠ [] := by
  intro hc
  have hlen := length_sortedKnights l
  rw [hc] at hlen
  exact h (List.length_eq_zero.mp hlen.symm)

/-- An export line of a knight with non-empty name is non-empty. -/
theorem knightLine_ne_nil (k : Knight) (h : k.name ≠ []) :
    knightLine k ≠ [] := by
  unfold knightLine
  simp [h]

/-- An export line contains no newline when `name`/`job` do not. -/
theorem knightLine_no_newline (k : Knight)
    (hn : '\n' ∉ k.name) (hj : '\n' ∉ k.job) : '\n' ∉ knightLine k := by
  unfold knightLine
  intro h
  simp only [List.mem_append, List.mem_cons] at h
  rcases h with h | h | h | h | h | h
  · exact hn h
  · exact absurd h (by decide)
  · exact hj h
  · exact absurd h (by decide)
  · exact ((intToStr_chars k.power '\n' h).2.2) rfl
  · rcases h with h | h
    · exact absurd h (by decide)
    · exact ((intToStr_chars k.relayCount '\n' h).2.2) rfl

/-- The head of an export line is the head of the name. -/
theorem knightLine_head? (k : Knight) (h : k.name ≠ []) :
    (knightLine k).head? = k.name.head? :=
  List.head?_append_of_ne_nil k.name h

/-- The last character of an export line is the last digit of the printed
`relayCount`. -/
theorem knightLine_getLast? (k : Knight) :
    (knightLine k).getLast? = (intToStr k.relayCount).getLast? := by
  unfold knightLine
  rw [List.getLast?_append_of_ne_nil k.name (by simp)]
  rw [show (':' :: (k.job ++ ':' ::
      (intToStr k.power ++ ':' :: intToStr k.relayCount))) =
    [':'] ++ (k.job ++ ':' ::
      (intToStr k.power ++ ':' :: intToStr k.relayCount)) from rfl]
  rw [List.getLast?_append_of_ne_nil [':'] (by simp)]
  rw [List.getLast?_append_of_ne_nil k.job (by simp)]
  rw [show (':' :: (intToStr k.power ++ ':' :: intToStr k.relayCount)) =
    [':'] ++ (intToStr k.power ++ ':' :: intToStr k.relayCount) from rfl]
  rw [List.getLast?_append_of_ne_nil [':'] (by simp)]
  rw [List.getLast?_append_of_ne_nil (intToStr k.power)
    (by simp [intToStr_ne_nil])]
  rw [show (':' :: intToStr k.relayCount) =
    [':'] ++ intToStr k.relayCount from rfl]
  rw [List.getLast?_append_of_ne_nil [':'] (intToStr_ne_nil _)]

/-- C3 (amended): importing the export of a non-empty roster in which every
knight's `name` and `job` are non-empty, colon-free, newline-free and carry
no leading/trailing whitespace appends, in display order, one new knight per
original knight with identical `name`, `job`, `power` and `relayCount`,
status `off-duty` and fresh id `now + index`, and reports all lines imported
and none skipped.  (The original claim assumed only colon-freeness; names
with surrounding whitespace are trimmed on import, and empty or
newline-containing names corrupt the line structure — see the
counterexample.) -/
theorem C3_export_import_roundtrip (s : AppState) (now : Nat)
    (hne : s.knights ≠ [])
    (hgood : ∀ k ∈ s.knights,
      k.name ≠ [] ∧ k.job ≠ [] ∧ ':' ∉ k.name ∧ ':' ∉ k.job ∧
      '\n' ∉ k.name ∧ '\n' ∉ k.job ∧ jsTrim k.name = k.name ∧
      jsTrim k.job = k.job) :
    (handleImportKnights now (handleExportKnights s) s).1.knights =
      s.knights ++ reimportedKnights now 0 (sortedKnights s.knights) ∧
    (handleImportKnights now (handleExportKnights s) s).2 =
      (s.knights.length, 0) := by
  have hks_ne : sortedKnights s.knights ≠ [] := sortedKnights_ne_nil _ hne
  have hgood' : ∀ k ∈ sortedKnights s.knights,
      k.name ≠ [] ∧ k.job ≠ [] ∧ ':' ∉ k.name ∧ ':' ∉ k.job ∧
      '\n' ∉ k.name ∧ '\n' ∉ k.job ∧ jsTrim k.name = k.name ∧
      jsTrim k.job = k.job :=
    fun k hk => hgood k ((mem_sortedKnights k _).mp hk)
  obtain ⟨k1, ks', hks1⟩ : ∃ a t, sortedKnights s.knights = a :: t := by
    rcases h : sortedKnights s.knights with _ | ⟨a, t⟩
    · exact absurd h hks_ne
    · exact ⟨a, t, rfl⟩
  have hk1 := hgood' k1 (by rw [hks1]; exact List.mem_cons_self _ _)
  have hdata_eq : handleExportKnights s =
      intercalateChar '\n' ((sortedKnights s.knights).map knightLine) := rfl
  have hhead_ws : ∀ c, (handleExportKnights s).head? = some c →
      jsWhitespace c = false := by
    intro c hc
    rw [hdata_eq, hks1, List.map_cons,
      head?_intercalateChar '\n' _ _ (knightLine_ne_nil k1 hk1.1),
      knightLine_head? k1 hk1.1] at hc
    exact head_not_ws_of_jsTrim k1.name hk1.2.2.2.2.2.2.1 c hc
  have hlines_ne : ∀ l ∈ ((sortedKnights s.knights).map knightLine),
      l ≠ [] := by
    intro l hl
    obtain ⟨k, hk, rfl⟩ := List.mem_map.mp hl
    exact knightLine_ne_nil k (hgood' k hk).1
  have hlast_ws : ∀ c, (handleExportKnights s).getLast? = some c →
      jsWhitespace c = false := by
    intro c hc
    rw [hdata_eq, hks1, List.map_cons] at hc
    obtain ⟨y, hy, hyl⟩ := getLast?_intercalateChar '\n' (ks'.map knightLine)
      (knightLine k1) (knightLine_ne_nil k1 hk1.1)
      (by rw [← List.map_cons, ← hks1]; exact hlines_ne)
    rw [hyl] at hc
    have hy' : y ∈ (sortedKnights s.knights).map knightLine := by
      rw [hks1, List.map_cons]; exact hy
    obtain ⟨k, hk, rfl⟩ := List.mem_map.mp hy'
    rw [knightLine_getLast? k] at hc
    exact (intToStr_chars k.relayCount c (List.mem_of_mem_getLast? hc)).1
  have htrim : jsTrim (handleExportKnights s) = handleExportKnights s :=
    jsTrim_eq_self_of _ hhead_ws hlast_ws
  have hdata_ne : handleExportKnights s ≠ [] := by
    rw [hdata_eq, hks1, List.map_cons]
    exact intercalateChar_ne_nil '\n' _ _ (knightLine_ne_nil k1 hk1.1)
  have hsplit : splitOnChar '\n' (handleExportKnights s) =
      (sortedKnights s.knights).map knightLine := by
    rw [hdata_eq]
    apply splitOnChar_intercalateChar
    · rw [hks1, List.map_cons]; simp
    · intro l hl
      obtain ⟨k, hk, rfl⟩ := List.mem_map.mp hl
      exact knightLine_no_newline k (hgood' k hk).2.2.2.2.1
        (hgood' k hk).2.2.2.2.2.1
  have hparse : ∀ k ∈ sortedKnights s.knights,
      parseKnightLine (knightLine k) =
        some (k.name, k.job, k.power, k.relayCount) := by
    intro k hk
    obtain ⟨a1, a2, a3, a4, _, _, a7, a8⟩ := hgood' k hk
    exact parseKnightLine_knightLine k a1 a2 a3 a4 a7 a8
  have himp := importLines_map_knightLine now 0 (sortedKnights s.knights) hparse
  have hie : (jsTrim (handleExportKnights s)).isEmpty = false := by
    rw [htrim]
    simpa [List.isEmpty_iff] using hdata_ne
  have hlen : (reimportedKnights now 0 (sortedKnights s.knights)).length =
      s.knights.length := by
    rw [reimportedKnights_length, length_sortedKnights]
  have hpos : 0 < (reimportedKnights now 0 (sortedKnights s.knights)).length := by
    rw [hlen]
    exact List.length_pos.mpr hne
  unfold handleImportKnights
  rw [hie]
  simp only [Bool.false_eq_true, if_false, htrim, hsplit, himp]
  rw [if_pos (by simpa using hpos)]
  exact ⟨rfl, by rw [hlen]⟩

/-- Witness for C3 at the one-knight state `exSelState`. -/
theorem C3_witness :
    (handleImportKnights 100 (handleExportKnights exSelState)
      exSelState).2 = (1, 0) :=
  (C3_export_import_roundtrip exSelState 100 (by decide) (by decide)).2

/-- C3 counterexample: a roster with the single colon-free knight named
`"a "` (trailing space) is non-empty and colon-free, yet the round trip
stores the trimmed name `"a"`, not an identical one, refuting the claim as
stated. -/
theorem C3_counterexample :
    exTrailingState.knights.map (fun k => k.name) = [['a', ' ']] ∧
    (handleImportKnights 100 (handleExportKnights exTrailingState)
      exTrailingState).1.knights.map (fun k => k.name) =
      [['a', ' '], ['a']] := by
  exact ⟨by decide, by decide⟩

/-! ### C5/C8: the reachability invariant -/

/-- `List.contains` on ids agrees with membership. -/
theorem contains_mem (l : List Nat) (a : Nat) : l.contains a = true ↔ a ∈ l := by
  simp

/-- Two knights of an id-nodup roster with equal ids are equal. -/
theorem knight_eq_of_id (l : List Knight)
    (hnd : (l.map (fun k => k.id)).Nodup) {x y : Knight}
    (hx : x ∈ l) (hy : y ∈ l) (h : x.id = y.id) : x = y :=
  List.inj_on_of_nodup_map hnd hx hy h

/-- Two clients of an id-nodup roster with equal ids are equal. -/
theorem client_eq_of_id (l : List Client)
    (hnd : (l.map (fun c => c.id)).Nodup) {x y : Client}
    (hx : x ∈ l) (hy : y ∈ l) (h : x.id = y.id) : x = y :=
  List.inj_on_of_nodup_map hnd hx hy h

/-- Two parties of an id-nodup collection with equal ids are equal. -/
theorem party_eq_of_id (l : List Party)
    (hnd : (l.map (fun p => p.id)).Nodup) {x y : Party}
    (hx : x ∈ l) (hy : y ∈ l) (h : x.id = y.id) : x = y :=
  List.inj_on_of_nodup_map hnd hx hy h

/-- The knight-snapshot disjointness relation is symmetric. -/
theorem disjK_symm :
    Symmetric (fun p q : Party => ∀ id ∈ partyKnightIds p,
      id ∉ partyKnightIds q) := by
  intro p q h id hidq hidp
  exact h id hidp hidq

/-- The client-snapshot disjointness relation is symmetric. -/
theorem disjC_symm :
    Symmetric (fun p q : Party => ∀ id ∈ partyClientIds p,
      id ∉ partyClientIds q) := by
  intro p q h id hidq hidp
  exact h id hidp hidq

/-- The empty initial state satisfies the invariant. -/
theorem inv_init : Inv initState := by
  refine ⟨?_, ?_, ?_, ?_, ?_, ?_, ?_, ?_, ?_, ?_, ?_, ?_⟩ <;>
    simp [initState]

/-- Invariant preservation under a knight map that fixes ids and statuses of
the members. -/
theorem inv_knights_map (s : AppState) (hinv : Inv s) (f : Knight → Knight)
    (hid : ∀ k ∈ s.knights, (f k).id = k.id)
    (hst : ∀ k ∈ s.knights, (f k).status = k.status) :
    Inv { s with knights := s.knights.map f } := by
  obtain ⟨h1, h2, h3, h4, h5, h6, h7, h8, h9, h10, h11, h12⟩ := hinv
  refine ⟨?_, h2, h3, h4, ?_, h6, ?_, h8, h9, h10, ?_, h12⟩
  · show ((s.knights.map f).map (fun k => k.id)).Nodup
    rw [List.map_map]
    have : s.knights.map ((fun k => k.id) ∘ f) =
        s.knights.map (fun k => k.id) := List.map_congr_left hid
    rw [this]
    exact h1
  · intro p hp k' hk' hin
    obtain ⟨x, hx, rfl⟩ := List.mem_map.mp hk'
    rw [hst x hx]
    exact h5 p hp x hx (by rw [← hid x hx]; exact hin)
  · intro k' hk' hstat
    obtain ⟨x, hx, rfl⟩ := List.mem_map.mp hk'
    rw [hst x hx] at hstat
    obtain ⟨p, hp, hin⟩ := h7 x hx hstat
    exact ⟨p, hp, by rw [hid x hx]; exact hin⟩
  · intro id hid' k' hk' hk'id
    obtain ⟨x, hx, rfl⟩ := List.mem_map.mp hk'
    rw [hst x hx]
    exact h11 id hid' x hx (by rw [← hid x hx]; exact hk'id)

/-- Invariant preservation under a client map that fixes ids and statuses of
the members. -/
theorem inv_clients_map (s : AppState) (hinv : Inv s) (f : Client → Client)
    (hid : ∀ c ∈ s.clients, (f c).id = c.id)
    (hst : ∀ c ∈ s.clients, (f c).status = c.status) :
    Inv { s with clients := s.clients.map f } := by
  obtain ⟨h1, h2, h3, h4, h5, h6, h7, h8, h9, h10, h11, h12⟩ := hinv
  refine ⟨h1, ?_, h3, h4, h5, ?_, h7, ?_, h9, h10, h11, ?_⟩
  · show ((s.clients.map f).map (fun c => c.id)).Nodup
    rw [List.map_map]
    have : s.clients.map ((fun c => c.id) ∘ f) =
        s.clients.map (fun c => c.id) := List.map_congr_left hid
    rw [this]
    exact h2
  · intro p hp c' hc' hin
    obtain ⟨x, hx, rfl⟩ := List.mem_map.mp hc'
    rw [hst x hx]
    exact h6 p hp x hx (by rw [← hid x hx]; exact hin)
  · intro c' hc' hstat
    obtain ⟨x, hx, rfl⟩ := List.mem_map.mp hc'
    rw [hst x hx] at hstat
    obtain ⟨p, hp, hin⟩ := h8 x hx hstat
    exact ⟨p, hp, by rw [hid x hx]; exact hin⟩
  · intro id hid' c' hc' hc'id
    obtain ⟨x, hx, rfl⟩ := List.mem_map.mp hc'
    rw [hst x hx]
    exact h12 id hid' x hx (by rw [← hid x hx]; exact hc'id)

/-- Invariant preservation under shrinking the knight roster. -/
theorem inv_knights_sublist (s : AppState) (hinv : Inv s) (l : List Knight)
    (hsub : List.Sublist l s.knights) : Inv { s with knights := l } := by
  obtain ⟨h1, h2, h3, h4, h5, h6, h7, h8, h9, h10, h11, h12⟩ := hinv
  refine ⟨h1.sublist (hsub.map _), h2, h3, h4, ?_, h6, ?_, h8, h9, h10, ?_, h12⟩
  · intro p hp k hk hin
    exact h5 p hp k (hsub.subset hk) hin
  · intro k hk hstat
    exact h7 k (hsub.subset hk) hstat
  · intro id hid k hk hkid
    exact h11 id hid k (hsub.subset hk) hkid

/-- Invariant preservation under shrinking the client roster. -/
theorem inv_clients_sublist (s : AppState) (hinv : Inv s) (l : List Client)
    (hsub : List.Sublist l s.clients) : Inv { s with clients := l } := by
  obtain ⟨h1, h2, h3, h4, h5, h6, h7, h8, h9, h10, h11, h12⟩ := hinv
  refine ⟨h1, h2.sublist (hsub.map _), h3, h4, h5, ?_, h7, ?_, h9, h10, h11, ?_⟩
  · intro p hp c hc hin
    exact h6 p hp c (hsub.subset hc) hin
  · intro c hc hstat
    exact h8 c (hsub.subset hc) hstat
  · intro id hid c hc hcid
    exact h12 id hid c (hsub.subset hc) hcid

/-- `addKnight` with a fresh id preserves the invariant. -/
theorem inv_addKnight (s : AppState) (hinv : Inv s) (id : Nat)
    (name job : Str) (power : Int) (hfr : KnightIdFresh id s) :
    Inv (handleAddKnight id name job power s) := by
  obtain ⟨h1, h2, h3, h4, h5, h6, h7, h8, h9, h10, h11, h12⟩ := hinv
  obtain ⟨hf1, hf2, hf3⟩ := hfr
  unfold handleAddKnight
  refine ⟨?_, h2, h3, h4, ?_, h6, ?_, h8, h9, h10, ?_, h12⟩
  · rw [List.map_append, List.nodup_append]
    refine ⟨h1, by simp, ?_⟩
    intro x hx
    obtain ⟨k, hk, rfl⟩ := List.mem_map.mp hx
    simp only [List.map_cons, List.map_nil, List.mem_singleton]
    exact hf1 k hk
  · intro p hp k hk hin
    rcases List.mem_append.mp hk with hk | hk
    · exact h5 p hp k hk hin
    · simp only [List.mem_singleton] at hk
      subst hk
      exact absurd hin (hf3 p hp)
  · intro k hk hstat
    rcases List.mem_append.mp hk with hk | hk
    · exact h7 k hk hstat
    · simp only [List.mem_singleton] at hk
      subst hk
      simp at hstat
  · intro id' hid' k hk hkid
    rcases List.mem_append.mp hk with hk | hk
    · exact h11 id' hid' k hk hkid
    · simp only [List.mem_singleton] at hk
      subst hk
      simp

/-- `addClient` with a fresh id preserves the invariant. -/
theorem inv_addClient (s : AppState) (hinv : Inv s) (id : Nat)
    (name job : Str) (power : Int) (notes : Str) (hfr : ClientIdFresh id s) :
    Inv (handleAddClient id name job power notes s) := by
  obtain ⟨h1, h2, h3, h4, h5, h6, h7, h8, h9, h10, h11, h12⟩ := hinv
  obtain ⟨hf1, hf2, hf3⟩ := hfr
  unfold handleAddClient
  refine ⟨h1, ?_, h3, h4, h5, ?_, h7, ?_, h9, h10, h11, ?_⟩
  · rw [List.map_append, List.nodup_append]
    refine ⟨h2, by simp, ?_⟩
    intro x hx
    obtain ⟨c, hc, rfl⟩ := List.mem_map.mp hx
    simp only [List.map_cons, List.map_nil, List.mem_singleton]
    exact hf1 c hc
  · intro p hp c hc hin
    rcases List.mem_append.mp hc with hc | hc
    · exact h6 p hp c hc hin
    · simp only [List.mem_singleton] at hc
      subst hc
      exact absurd hin (hf3 p hp)
  · intro c hc hstat
    rcases List.mem_append.mp hc with hc | hc
    · exact h8 c hc hstat
    · simp only [List.mem_singleton] at hc
      subst hc
      simp at hstat
  · intro id' hid' c hc hcid
    rcases List.mem_append.mp hc with hc | hc
    · exact h12 id' hid' c hc hcid
    · simp only [List.mem_singleton] at hc
      subst hc
      rfl

/-- `updateKnight` on a roster member preserves the invariant. -/
theorem inv_updateKnight (s : AppState) (hinv : Inv s) (item : Knight)
    (name job : Str) (power : Int) (hmem : item ∈ s.knights) :
    Inv (handleUpdateKnight item name job power s) := by
  have h1 := hinv.1
  apply inv_knights_map s hinv
  · intro k hk
    by_cases h : (k.id == item.id) = true
    · simp only [h, if_true]
      exact (by simpa using h : _ = item.id).symm
    · simp [h]
  · intro k hk
    by_cases h : (k.id == item.id) = true
    · simp only [h, if_true]
      have hkitem : k = item :=
        knight_eq_of_id s.knights h1 hk hmem (by simpa using h)
      rw [hkitem]
    · simp [h]

/-- `updateClient` on a roster member preserves the invariant. -/
theorem inv_updateClient (s : AppState) (hinv : Inv s) (item : Client)
    (name job : Str) (power : Int) (notes : Str) (hmem : item ∈ s.clients) :
    Inv (handleUpdateClient item name job power notes s) := by
  have h2 := hinv.2.1
  apply inv_clients_map s hinv
  · intro c hc
    by_cases h : (c.id == item.id) = true
    · simp only [h, if_true]
      exact (by simpa using h : _ = item.id).symm
    · simp [h]
  · intro c hc
    by_cases h : (c.id == item.id) = true
    · simp only [h, if_true]
      have hcitem : c = item :=
        client_eq_of_id s.clients h2 hc hmem (by simpa using h)
      rw [hcitem]
    · simp [h]

/-- `deleteKnight` preserves the invariant. -/
theorem inv_deleteKnight (s : AppState) (hinv : Inv s) (id : Nat) :
    Inv (handleDeleteKnight id s) :=
  inv_knights_sublist s hinv _ (List.filter_sublist s.knights)

/-- `deleteClient` preserves the invariant. -/
theorem inv_deleteClient (s : AppState) (hinv : Inv s) (id : Nat) :
    Inv (handleDeleteClient id s) :=
  inv_clients_sublist s hinv _ (List.filter_sublist s.clients)

/-- `toggleSelection` preserves the invariant. -/
theorem inv_toggleSel (s : AppState) (hinv : Inv s) (id : Nat) (t : ItemType) :
    Inv (toggleSelection id t s) := by
  obtain ⟨h1, h2, h3, h4, h5, h6, h7, h8, h9, h10, h11, h12⟩ := hinv
  cases t with
  | knight =>
    cases hf : s.knights.find? (fun k => k.id == id) with
    | none =>
      have hno : ∀ k ∈ s.knights, k.id ≠ id := by
        intro k hk
        have := List.find?_eq_none.mp hf k hk
        simpa using this
      have hs' : toggleSelection id ItemType.knight s =
          { s with selectedKnightIds := toggleList id s.selectedKnightIds } := by
        simp [toggleSelection, hf]
      rw [hs']
      refine ⟨h1, h2, h3, h4, h5, h6, h7, h8, h9, h10, ?_, h12⟩
      intro id' hid' k hk hkid
      unfold toggleList at hid'
      split at hid'
      · exact h11 id' (List.mem_of_mem_filter hid') k hk hkid
      · rcases List.mem_append.mp hid' with h | h
        · exact h11 id' h k hk hkid
        · simp only [List.mem_singleton] at h
          subst h
          exact absurd hkid (hno k hk)
    | some k0 =>
      by_cases hst : k0.status ≠ KStatus.waiting
      · have hs' : toggleSelection id ItemType.knight s = s := by
          simp [toggleSelection, hf, hst]
        rw [hs']
        exact ⟨h1, h2, h3, h4, h5, h6, h7, h8, h9, h10, h11, h12⟩
      · have hk0w : k0.status = KStatus.waiting := not_not.mp hst
        have hs' : toggleSelection id ItemType.knight s =
            { s with selectedKnightIds := toggleList id s.selectedKnightIds } := by
          simp [toggleSelection, hf, hk0w]
        rw [hs']
        have hk0mem : k0 ∈ s.knights := List.mem_of_find?_eq_some hf
        have hk0id : k0.id = id := by simpa using List.find?_some hf
        refine ⟨h1, h2, h3, h4, h5, h6, h7, h8, h9, h10, ?_, h12⟩
        intro id' hid' k hk hkid
        unfold toggleList at hid'
        split at hid'
        · exact h11 id' (List.mem_of_mem_filter hid') k hk hkid
        · rcases List.mem_append.mp hid' with h | h
          · exact h11 id' h k hk hkid
          · simp only [List.mem_singleton] at h
            subst h
            have hkk0 : k = k0 :=
              knight_eq_of_id s.knights h1 hk hk0mem (by rw [hkid, hk0id])
            rw [hkk0, hk0w]
            simp
  | client =>
    cases hf : s.clients.find? (fun c => c.id == id) with
    | none =>
      have hno : ∀ c ∈ s.clients, c.id ≠ id := by
        intro c hc
        have := List.find?_eq_none.mp hf c hc
        simpa using this
      have hs' : toggleSelection id ItemType.client s =
          { s with selectedClientIds := toggleList id s.selectedClientIds } := by
        simp [toggleSelection, hf]
      rw [hs']
      refine ⟨h1, h2, h3, h4, h5, h6, h7, h8, h9, h10, h11, ?_⟩
      intro id' hid' c hc hcid
      unfold toggleList at hid'
      split at hid'
      · exact h12 id' (List.mem_of_mem_filter hid') c hc hcid
      · rcases List.mem_append.mp hid' with h | h
        · exact h12 id' h c hc hcid
        · simp only [List.mem_singleton] at h
          subst h
          exact absurd hcid (hno c hc)
    | some c0 =>
      by_cases hst : c0.status ≠ CStatus.waiting
      · have hs' : toggleSelection id ItemType.client s = s := by
          simp [toggleSelection, hf, hst]
        rw [hs']
        exact ⟨h1, h2, h3, h4, h5, h6, h7, h8, h9, h10, h11, h12⟩
      · have hc0w : c0.status = CStatus.waiting := not_not.mp hst
        have hs' : toggleSelection id ItemType.client s =
            { s with selectedClientIds := toggleList id s.selectedClientIds } := by
          simp [toggleSelection, hf, hc0w]
        rw [hs']
        have hc0mem : c0 ∈ s.clients := List.mem_of_find?_eq_some hf
        have hc0id : c0.id = id := by simpa using List.find?_some hf
        refine ⟨h1, h2, h3, h4, h5, h6, h7, h8, h9, h10, h11, ?_⟩
        intro id' hid' c hc hcid
        unfold toggleList at hid'
        split at hid'
        · exact h12 id' (List.mem_of_mem_filter hid') c hc hcid
        · rcases List.mem_append.mp hid' with h | h
          · exact h12 id' h c hc hcid
          · simp only [List.mem_singleton] at h
            subst h
            have hcc0 : c = c0 :=
              client_eq_of_id s.clients h2 hc hc0mem (by rw [hcid, hc0id])
            rw [hcc0, hc0w]

/-- `toggleKnightStatus` preserves the invariant. -/
theorem inv_toggleKnightStatus (s : AppState) (hinv : Inv s) (id : Nat) :
    Inv (handleToggleKnightStatus id s) := by
  obtain ⟨h1, h2, h3, h4, h5, h6, h7, h8, h9, h10, h11, h12⟩ := hinv
  unfold handleToggleKnightStatus
  have hid : ∀ k : Knight,
      (if k.id == id then
        if k.status = KStatus.waiting then { k with status := KStatus.offDuty }
        else if k.status = KStatus.offDuty then
          { k with status := KStatus.waiting }
        else k
      else k).id = k.id := by
    intro k
    by_cases h : (k.id == id) = true <;>
      by_cases hw : k.status = KStatus.waiting <;>
      by_cases ho : k.status = KStatus.offDuty <;>
      simp [h, hw, ho]
  have hfix : ∀ k : Knight, k.status = KStatus.inParty →
      (if k.id == id then
        if k.status = KStatus.waiting then { k with status := KStatus.offDuty }
        else if k.status = KStatus.offDuty then
          { k with status := KStatus.waiting }
        else k
      else k) = k := by
    intro k hk
    have hw : ¬(k.status = KStatus.waiting) := by rw [hk]; simp
    have ho : ¬(k.status = KStatus.offDuty) := by rw [hk]; simp
    by_cases h : (k.id == id) = true <;> simp [h, hw, ho]
  have hnotin : ∀ k : Knight, k.status ≠ KStatus.inParty →
      (if k.id == id then
        if k.status = KStatus.waiting then { k with status := KStatus.offDuty }
        else if k.status = KStatus.offDuty then
          { k with status := KStatus.waiting }
        else k
      else k).status ≠ KStatus.inParty := by
    intro k hk
    by_cases h : (k.id == id) = true <;>
      by_cases hw : k.status = KStatus.waiting <;>
      by_cases ho : k.status = KStatus.offDuty <;>
      simp [h, hw, ho] <;> exact hk
  have hcomp : ∀ gf : Knight → Knight, (∀ k : Knight, (gf k).id = k.id) →
      s.knights.map ((fun k => k.id) ∘ gf) = s.knights.map (fun k => k.id) :=
    fun gf hgf => List.map_congr_left (fun k _ => hgf k)
  refine ⟨?_, h2, h3, h4, ?_, h6, ?_, h8, h9, h10, ?_, h12⟩
  · rw [List.map_map, hcomp _ hid]
    exact h1
  · intro p hp k' hk' hin
    obtain ⟨x, hx, rfl⟩ := List.mem_map.mp hk'
    have hxin : x.id ∈ partyKnightIds p := by rw [← hid x]; exact hin
    have hxst : x.status = KStatus.inParty := h5 p hp x hx hxin
    rw [hfix x hxst]
    exact hxst
  · intro k' hk' hstat
    obtain ⟨x, hx, rfl⟩ := List.mem_map.mp hk'
    have hxst : x.status = KStatus.inParty := by
      by_contra hxn
      exact hnotin x hxn hstat
    obtain ⟨p, hp, hin⟩ := h7 x hx hxst
    refine ⟨p, hp, ?_⟩
    rw [hfix x hxst]
    exact hin
  · intro id' hid'' k' hk' hk'id
    obtain ⟨x, hx, rfl⟩ := List.mem_map.mp hk'
    have hxid : x.id = id' := by rw [← hid x]; exact hk'id
    exact hnotin x (h11 id' hid'' x hx hxid)

/-- `createParty` preserves the invariant. -/
theorem inv_createParty (s : AppState) (hinv : Inv s) :
    Inv (handleCreateParty s) := by
  obtain ⟨h1, h2, h3, h4, h5, h6, h7, h8, h9, h10, h11, h12⟩ := hinv
  by_cases hsel : (s.selectedKnightIds.isEmpty || s.selectedClientIds.isEmpty) = true
  · rw [show handleCreateParty s = s by simp [handleCreateParty, hsel]]
    exact ⟨h1, h2, h3, h4, h5, h6, h7, h8, h9, h10, h11, h12⟩
  · have hs' : handleCreateParty s =
        { s with
          parties := s.parties ++
            [{ id := s.partyIdCounter,
               knights := s.knights.filter
                 (fun k => s.selectedKnightIds.contains k.id),
               clients := s.clients.filter
                 (fun c => s.selectedClientIds.contains c.id),
               isCompleted := false }],
          knights := s.knights.map (fun k =>
            if s.selectedKnightIds.contains k.id then
              { k with status := KStatus.inParty } else k),
          clients := s.clients.map (fun c =>
            if s.selectedClientIds.contains c.id then
              { c with status := CStatus.inParty } else c),
          partyIdCounter := s.partyIdCounter + 1,
          selectedKnightIds := [],
          selectedClientIds := [] } := by
      simp only [handleCreateParty, Bool.not_eq_true] at hsel ⊢
      rw [hsel]
      simp
    rw [hs']
    have hfkid : ∀ k : Knight,
        ((fun k => if s.selectedKnightIds.contains k.id then
          { k with status := KStatus.inParty } else k) k).id = k.id := by
      intro k
      beta_reduce
      by_cases h : s.selectedKnightIds.contains k.id = true
      · rw [if_pos h]
      · rw [if_neg h]
    have hfcid : ∀ c : Client,
        ((fun c => if s.selectedClientIds.contains c.id then
          { c with status := CStatus.inParty } else c) c).id = c.id := by
      intro c
      beta_reduce
      by_cases h : s.selectedClientIds.contains c.id = true
      · rw [if_pos h]
      · rw [if_neg h]
    have hcompK : ∀ gf : Knight → Knight, (∀ k : Knight, (gf k).id = k.id) →
        s.knights.map ((fun k => k.id) ∘ gf) = s.knights.map (fun k => k.id) :=
      fun gf hgf => List.map_congr_left (fun k _ => hgf k)
    have hcompC : ∀ gf : Client → Client, (∀ c : Client, (gf c).id = c.id) →
        s.clients.map ((fun c => c.id) ∘ gf) = s.clients.map (fun c => c.id) :=
      fun gf hgf => List.map_congr_left (fun c _ => hgf c)
    refine ⟨?_, ?_, ?_, ?_, ?_, ?_, ?_, ?_, ?_, ?_, ?_, ?_⟩
    · rw [List.map_map, hcompK _ hfkid]
      exact h1
    · rw [List.map_map, hcompC _ hfcid]
      exact h2
    · rw [List.map_append, List.nodup_append]
      refine ⟨h3, by simp, ?_⟩
      intro x hx
      obtain ⟨p, hp, rfl⟩ := List.mem_map.mp hx
      simp only [List.map_cons, List.map_nil, List.mem_singleton]
      exact Nat.ne_of_lt (h4 p hp)
    · intro p hp
      rcases List.mem_append.mp hp with hp | hp
      · exact Nat.lt_succ_of_lt (h4 p hp)
      · simp only [List.mem_singleton] at hp
        subst hp
        exact Nat.lt_succ_self _
    · intro q hq k' hk' hin
      obtain ⟨x, hx, rfl⟩ := List.mem_map.mp hk'
      rcases List.mem_append.mp hq with hq | hq
      · have hxin : x.id ∈ partyKnightIds q := by rw [← hfkid x]; exact hin
        have hxst := h5 q hq x hx hxin
        by_cases h : s.selectedKnightIds.contains x.id = true
        · rw [if_pos h]
        · rw [if_neg h]; exact hxst
      · simp only [List.mem_singleton] at hq
        subst hq
        rw [hfkid x] at hin
        obtain ⟨y, hy, hyid⟩ := List.mem_map.mp hin
        obtain ⟨hy1, hy2⟩ := List.mem_filter.mp hy
        have hyx : y = x := knight_eq_of_id s.knights h1 hy1 hx hyid
        subst hyx
        rw [if_pos hy2]
    · intro q hq c' hc' hin
      obtain ⟨x, hx, rfl⟩ := List.mem_map.mp hc'
      rcases List.mem_append.mp hq with hq | hq
      · have hxin : x.id ∈ partyClientIds q := by rw [← hfcid x]; exact hin
        have hxst := h6 q hq x hx hxin
        by_cases h : s.selectedClientIds.contains x.id = true
        · rw [if_pos h]
        · rw [if_neg h]; exact hxst
      · simp only [List.mem_singleton] at hq
        subst hq
        rw [hfcid x] at hin
        obtain ⟨y, hy, hyid⟩ := List.mem_map.mp hin
        obtain ⟨hy1, hy2⟩ := List.mem_filter.mp hy
        have hyx : y = x := client_eq_of_id s.clients h2 hy1 hx hyid
        subst hyx
        rw [if_pos hy2]
    · intro k' hk' hstat
      obtain ⟨x, hx, rfl⟩ := List.mem_map.mp hk'
      by_cases h : s.selectedKnightIds.contains x.id = true
      · refine ⟨_, List.mem_append.mpr (Or.inr (List.mem_singleton.mpr rfl)), ?_⟩
        rw [hfkid x]
        exact List.mem_map.mpr ⟨x, List.mem_filter.mpr ⟨hx, h⟩, rfl⟩
      · rw [if_neg h] at hstat
        obtain ⟨p, hp, hin⟩ := h7 x hx hstat
        refine ⟨p, List.mem_append.mpr (Or.inl hp), ?_⟩
        rw [hfkid x]
        exact hin
    · intro c' hc' hstat
      obtain ⟨x, hx, rfl⟩ := List.mem_map.mp hc'
      by_cases h : s.selectedClientIds.contains x.id = true
      · refine ⟨_, List.mem_append.mpr (Or.inr (List.mem_singleton.mpr rfl)), ?_⟩
        rw [hfcid x]
        exact List.mem_map.mpr ⟨x, List.mem_filter.mpr ⟨hx, h⟩, rfl⟩
      · rw [if_neg h] at hstat
        obtain ⟨p, hp, hin⟩ := h8 x hx hstat
        refine ⟨p, List.mem_append.mpr (Or.inl hp), ?_⟩
        rw [hfcid x]
        exact hin
    · rw [List.pairwise_append]
      refine ⟨h9, by simp, ?_⟩
      intro a ha b hb id hida hidb
      simp only [List.mem_singleton] at hb
      subst hb
      obtain ⟨y, hy, hyid⟩ := List.mem_map.mp hidb
      obtain ⟨hy1, hy2⟩ := List.mem_filter.mp hy
      have hyst := h5 a ha y hy1 (by rw [hyid]; exact hida)
      exact h11 y.id (contains_mem _ _ |>.mp hy2) y hy1 rfl hyst
    · rw [List.pairwise_append]
      refine ⟨h10, by simp, ?_⟩
      intro a ha b hb id hida hidb
      simp only [List.mem_singleton] at hb
      subst hb
      obtain ⟨y, hy, hyid⟩ := List.mem_map.mp hidb
      obtain ⟨hy1, hy2⟩ := List.mem_filter.mp hy
      have hyst := h6 a ha y hy1 (by rw [hyid]; exact hida)
      have := h12 y.id (contains_mem _ _ |>.mp hy2) y hy1 rfl
      rw [this] at hyst
      exact absurd hyst (by simp)
    · intro id' hid'
      simp at hid'
    · intro id' hid'
      simp at hid'

/-- `completeMission` preserves the invariant. -/
theorem inv_completeMission (s : AppState) (hinv : Inv s) (pid : Nat) :
    Inv (handleCompleteMission pid s) := by
  obtain ⟨h1, h2, h3, h4, h5, h6, h7, h8, h9, h10, h11, h12⟩ := hinv
  cases hf : s.parties.find? (fun p => p.id == pid) with
  | none =>
    rw [completeMission_of_find?_none pid s hf]
    exact ⟨h1, h2, h3, h4, h5, h6, h7, h8, h9, h10, h11, h12⟩
  | some p =>
    rw [completeMission_of_find?_some pid s p hf]
    have hpmem : p ∈ s.parties := List.mem_of_find?_eq_some hf
    have hpid : p.id = pid := by simpa using List.find?_some hf
    have hdisjK : ∀ q ∈ s.parties, q ≠ p →
        ∀ id ∈ partyKnightIds q, id ∉ partyKnightIds p := by
      intro q hq hne
      exact List.Pairwise.forall disjK_symm h9 hq hpmem hne
    have hdisjC : ∀ q ∈ s.parties, q ≠ p →
        ∀ id ∈ partyClientIds q, id ∉ partyClientIds p := by
      intro q hq hne
      exact List.Pairwise.forall disjC_symm h10 hq hpmem hne
    have hfkid : ∀ k : Knight,
        ((fun k => if (p.knights.map (fun x => x.id)).contains k.id then
          { k with relayCount := k.relayCount + 1, status := KStatus.waiting }
          else k) k).id = k.id := by
      intro k
      beta_reduce
      by_cases h : (p.knights.map (fun x => x.id)).contains k.id = true
      · rw [if_pos h]
      · rw [if_neg h]
    have hfcid : ∀ c : Client,
        ((fun c => if (p.clients.map (fun x => x.id)).contains c.id then
          { c with status := CStatus.completed } else c) c).id = c.id := by
      intro c
      beta_reduce
      by_cases h : (p.clients.map (fun x => x.id)).contains c.id = true
      · rw [if_pos h]
      · rw [if_neg h]
    have hcompK : ∀ gf : Knight → Knight, (∀ k : Knight, (gf k).id = k.id) →
        s.knights.map ((fun k => k.id) ∘ gf) = s.knights.map (fun k => k.id) :=
      fun gf hgf => List.map_congr_left (fun k _ => hgf k)
    have hcompC : ∀ gf : Client → Client, (∀ c : Client, (gf c).id = c.id) →
        s.clients.map ((fun c => c.id) ∘ gf) = s.clients.map (fun c => c.id) :=
      fun gf hgf => List.map_congr_left (fun c _ => hgf c)
    have hpartysub : List.Sublist
        (s.parties.filter (fun q => q.id != pid)) s.parties :=
      List.filter_sublist s.parties
    refine ⟨?_, ?_, ?_, ?_, ?_, ?_, ?_, ?_, ?_, ?_, ?_, ?_⟩
    · rw [List.map_map, hcompK _ hfkid]
      exact h1
    · rw [List.map_map, hcompC _ hfcid]
      exact h2
    · exact h3.sublist (hpartysub.map _)
    · intro q hq
      exact h4 q (hpartysub.subset hq)
    · intro q hq k' hk' hin
      obtain ⟨x, hx, rfl⟩ := List.mem_map.mp hk'
      obtain ⟨hqmem, hqid⟩ := List.mem_filter.mp hq
      have hqne : q ≠ p := by
        intro he
        subst he
        simp [hpid] at hqid
      have hxin : x.id ∈ partyKnightIds q := by rw [← hfkid x]; exact hin
      have hxst := h5 q hqmem x hx hxin
      have hxnotp : x.id ∉ partyKnightIds p := hdisjK q hqmem hqne x.id hxin
      have hcon : ¬((p.knights.map (fun x => x.id)).contains x.id = true) := by
        intro hc
        exact hxnotp ((contains_mem _ _).mp hc)
      rw [if_neg hcon]
      exact hxst
    · intro q hq c' hc' hin
      obtain ⟨x, hx, rfl⟩ := List.mem_map.mp hc'
      obtain ⟨hqmem, hqid⟩ := List.mem_filter.mp hq
      have hqne : q ≠ p := by
        intro he
        subst he
        simp [hpid] at hqid
      have hxin : x.id ∈ partyClientIds q := by rw [← hfcid x]; exact hin
      have hxst := h6 q hqmem x hx hxin
      have hxnotp : x.id ∉ partyClientIds p := hdisjC q hqmem hqne x.id hxin
      have hcon : ¬((p.clients.map (fun x => x.id)).contains x.id = true) := by
        intro hc
        exact hxnotp ((contains_mem _ _).mp hc)
      rw [if_neg hcon]
      exact hxst
    · intro k' hk' hstat
      obtain ⟨x, hx, rfl⟩ := List.mem_map.mp hk'
      by_cases h : (p.knights.map (fun x => x.id)).contains x.id = true
      · rw [if_pos h] at hstat
        exact absurd hstat (by simp)
      · rw [if_neg h] at hstat
        obtain ⟨q, hq, hin⟩ := h7 x hx hstat
        have hqne : q ≠ p := by
          intro he
          subst he
          exact h ((contains_mem _ _).mpr hin)
        have hqid : q.id ≠ pid := by
          intro he
          exact hqne (party_eq_of_id s.parties h3 hq hpmem (by rw [he, hpid]))
        refine ⟨q, List.mem_filter.mpr ⟨hq, by simpa using hqid⟩, ?_⟩
        rw [hfkid x]
        exact hin
    · intro c' hc' hstat
      obtain ⟨x, hx, rfl⟩ := List.mem_map.mp hc'
      by_cases h : (p.clients.map (fun x => x.id)).contains x.id = true
      · rw [if_pos h] at hstat
        exact absurd hstat (by simp)
      · rw [if_neg h] at hstat
        obtain ⟨q, hq, hin⟩ := h8 x hx hstat
        have hqne : q ≠ p := by
          intro he
          subst he
          exact h ((contains_mem _ _).mpr hin)
        have hqid : q.id ≠ pid := by
          intro he
          exact hqne (party_eq_of_id s.parties h3 hq hpmem (by rw [he, hpid]))
        refine ⟨q, List.mem_filter.mpr ⟨hq, by simpa using hqid⟩, ?_⟩
        rw [hfcid x]
        exact hin
    · exact h9.sublist hpartysub
    · exact h10.sublist hpartysub
    · intro id' hid' k' hk' hk'id
      obtain ⟨x, hx, rfl⟩ := List.mem_map.mp hk'
      have hxid : x.id = id' := by rw [← hfkid x]; exact hk'id
      by_cases h : (p.knights.map (fun x => x.id)).contains x.id = true
      · rw [if_pos h]
        simp
      · rw [if_neg h]
        exact h11 id' hid' x hx hxid
    · intro id' hid' c' hc' hc'id
      obtain ⟨x, hx, rfl⟩ := List.mem_map.mp hc'
      have hxid : x.id = id' := by rw [← hfcid x]; exact hc'id
      have hxw := h12 id' hid' x hx hxid
      by_cases h : (p.clients.map (fun x => x.id)).contains x.id = true
      · have hxin : x.id ∈ partyClientIds p := (contains_mem _ _).mp h
        have := h6 p hpmem x hx hxin
        rw [hxw] at this
        exact absurd this (by simp)
      · rw [if_neg h]
        exact hxw

/-- The ids produced by the import loop are distinct. -/
theorem importLines_ids_nodup (now : Nat) :
    ∀ (idx : Nat) (lines : List Str),
      ((importLines now idx lines).1.map (fun k => k.id)).Nodup := by
  intro idx lines
  induction lines generalizing idx with
  | nil => simp [importLines]
  | cons l rest ih =>
    cases hl : parseKnightLine l with
    | none => simpa [importLines, hl] using ih (idx + 1)
    | some f =>
      simp only [importLines, hl, List.map_cons]
      rw [List.nodup_cons]
      refine ⟨?_, ih (idx + 1)⟩
      intro hmem
      obtain ⟨k, hk, hkid⟩ := List.mem_map.mp hmem
      obtain ⟨_, hlo, _⟩ := importLines_mem now (idx + 1) rest k hk
      simp only [mkImportedKnight] at hkid
      omega

/-- `importKnights` with fresh ids preserves the invariant. -/
theorem inv_importKnights (s : AppState) (hinv : Inv s) (now : Nat)
    (data : Str)
    (hfr : ∀ i < (splitOnChar '\n' (jsTrim data)).length,
      KnightIdFresh (now + i) s) :
    Inv (handleImportKnights now data s).1 := by
  obtain ⟨h1, h2, h3, h4, h5, h6, h7, h8, h9, h10, h11, h12⟩ := hinv
  by_cases he : (jsTrim data).isEmpty = true
  · rw [show (handleImportKnights now data s).1 = s by
      simp [handleImportKnights, he]]
    exact ⟨h1, h2, h3, h4, h5, h6, h7, h8, h9, h10, h11, h12⟩
  · by_cases hlen :
      (importLines now 0 (splitOnChar '\n' (jsTrim data))).1.length > 0
    · have hs' : (handleImportKnights now data s).1 =
          { s with knights := s.knights ++
            (importLines now 0 (splitOnChar '\n' (jsTrim data))).1 } := by
        simp only [handleImportKnights, Bool.not_eq_true] at he ⊢
        rw [he]
        simp [hlen]
      rw [hs']
      have hnew : ∀ k ∈ (importLines now 0 (splitOnChar '\n' (jsTrim data))).1,
          k.status = KStatus.offDuty ∧ KnightIdFresh k.id s := by
        intro k hk
        obtain ⟨hst, hlo, hhi⟩ :=
          importLines_mem now 0 (splitOnChar '\n' (jsTrim data)) k hk
        refine ⟨hst, ?_⟩
        have hi : k.id = now + (k.id - now) := by omega
        rw [hi]
        exact hfr (k.id - now) (by omega)
      refine ⟨?_, h2, h3, h4, ?_, h6, ?_, h8, h9, h10, ?_, h12⟩
      · rw [List.map_append, List.nodup_append]
        refine ⟨h1, importLines_ids_nodup now 0 _, ?_⟩
        intro x hx
        obtain ⟨k, hk, rfl⟩ := List.mem_map.mp hx
        intro hx'
        obtain ⟨k', hk', hk'id⟩ := List.mem_map.mp hx'
        exact (hnew k' hk').2.1 k hk hk'id.symm
      · intro p hp k hk hin
        rcases List.mem_append.mp hk with hk | hk
        · exact h5 p hp k hk hin
        · exact absurd hin ((hnew k hk).2.2.2 p hp)
      · intro k hk hstat
        rcases List.mem_append.mp hk with hk | hk
        · exact h7 k hk hstat
        · rw [(hnew k hk).1] at hstat
          exact absurd hstat (by simp)
      · intro id' hid' k hk hkid
        rcases List.mem_append.mp hk with hk | hk
        · exact h11 id' hid' k hk hkid
        · rw [(hnew k hk).1]
          simp
    · rw [show (handleImportKnights now data s).1 = s by
        simp only [handleImportKnights, Bool.not_eq_true] at he ⊢
        rw [he]
        simp [hlen]]
      exact ⟨h1, h2, h3, h4, h5, h6, h7, h8, h9, h10, h11, h12⟩

/-- Every reachable state satisfies the invariant. -/
theorem reachable_inv {s : AppState} (h : Reachable s) : Inv s := by
  induction h with
  | init => exact inv_init
  | step s op hr hw ih =>
    cases op with
    | addKnight id name job power => exact inv_addKnight s ih id name job power hw
    | addClient id name job power notes =>
        exact inv_addClient s ih id name job power notes hw
    | updateKnight item name job power =>
        exact inv_updateKnight s ih item name job power hw
    | updateClient item name job power notes =>
        exact inv_updateClient s ih item name job power notes hw
    | deleteKnight id => exact inv_deleteKnight s ih id
    | deleteClient id => exact inv_deleteClient s ih id
    | toggleSel id t => exact inv_toggleSel s ih id t
    | createParty => exact inv_createParty s ih
    | completeMission pid => exact inv_completeMission s ih pid
    | toggleKnightStatus id => exact inv_toggleKnightStatus s ih id
    | importKnights now data => exact inv_importKnights s ih now data hw

/-- In a pairwise snapshot-disjoint party list, an id occurring in the
snapshot of a member occurs in exactly one member. -/
theorem countP_one_of_pairwise (g : Party → List Nat) :
    ∀ l : List Party, l.Pairwise (fun p q => ∀ id ∈ g p, id ∉ g q) →
      ∀ p ∈ l, ∀ id ∈ g p, l.countP (fun q => (g q).contains id) = 1 := by
  intro l
  induction l with
  | nil =>
    intro _ p hp
    exact absurd hp (List.not_mem_nil p)
  | cons q rest ih =>
    intro hpw p hp id hid
    obtain ⟨hhead, htail⟩ := List.pairwise_cons.mp hpw
    rw [List.countP_cons]
    rcases List.mem_cons.mp hp with rfl | hp'
    · have hzero : rest.countP (fun r => (g r).contains id) = 0 := by
        rw [List.countP_eq_zero]
        intro r hr hcr
        exact (hhead r hr id hid) ((contains_mem _ _).mp hcr)
      rw [hzero, if_pos ((contains_mem _ _).mpr hid)]
    · have hnc : ¬((g q).contains id = true) := by
        intro hc
        exact (hhead p hp' id ((contains_mem _ _).mp hc)) hid
      rw [if_neg hnc, ih htail p hp' id hid]

/-- Pairwise knight-snapshot disjointness implies the Bool check. -/
theorem snapshotsDisjointK_of_pairwise :
    ∀ l : List Party,
      l.Pairwise (fun p q => ∀ id ∈ partyKnightIds p,
        id ∉ partyKnightIds q) →
      snapshotsDisjointK l = true := by
  intro l
  induction l with
  | nil => intro _; rfl
  | cons p ps ih =>
    intro hpw
    obtain ⟨hhead, htail⟩ := List.pairwise_cons.mp hpw
    simp only [snapshotsDisjointK, Bool.and_eq_true]
    refine ⟨?_, ih htail⟩
    rw [List.all_eq_true]
    intro q hq
    rw [List.all_eq_true]
    intro id hid
    simp only [Bool.not_eq_true']
    rw [← Bool.not_eq_true]
    intro hc
    exact hhead q hq id hid ((contains_mem _ _).mp hc)

/-- Pairwise client-snapshot disjointness implies the Bool check. -/
theorem snapshotsDisjointC_of_pairwise :
    ∀ l : List Party,
      l.Pairwise (fun p q => ∀ id ∈ partyClientIds p,
        id ∉ partyClientIds q) →
      snapshotsDisjointC l = true := by
  intro l
  induction l with
  | nil => intro _; rfl
  | cons p ps ih =>
    intro hpw
    obtain ⟨hhead, htail⟩ := List.pairwise_cons.mp hpw
    simp only [snapshotsDisjointC, Bool.and_eq_true]
    refine ⟨?_, ih htail⟩
    rw [List.all_eq_true]
    intro q hq
    rw [List.all_eq_true]
    intro id hid
    simp only [Bool.not_eq_true']
    rw [← Bool.not_eq_true]
    intro hc
    exact hhead q hq id hid ((contains_mem _ _).mp hc)

/-- The two-member selected state is reachable. -/
theorem reach_exSelState : Reachable exSelState := by
  have r1 : Reachable (applyOp (Op.addKnight 10 ['a'] ['j'] 1) initState) :=
    Reachable.step _ _ Reachable.init (⟨by decide, by decide, by decide⟩ :
      KnightIdFresh 10 initState)
  have r2 : Reachable (applyOp (Op.addClient 20 ['c'] ['j'] 1 [])
      (applyOp (Op.addKnight 10 ['a'] ['j'] 1) initState)) :=
    Reachable.step _ _ r1 (⟨by decide, by decide, by decide⟩ :
      ClientIdFresh 20 (applyOp (Op.addKnight 10 ['a'] ['j'] 1) initState))
  have r3 := Reachable.step _ (Op.toggleSel 10 ItemType.knight) r2 trivial
  have r4 := Reachable.step _ (Op.toggleSel 20 ItemType.client) r3 trivial
  exact r4

/-- The one-party state is reachable. -/
theorem reach_exPartyState : Reachable exPartyState :=
  Reachable.step _ Op.createParty reach_exSelState trivial

/-- C8: in every reachable state, every `in-party` knight and client of the
main collections belongs to exactly one live party snapshot, and no entity id
occurs in the snapshots of two distinct live parties. -/
theorem C8_party_membership (s : AppState) (hr : Reachable s) :
    partyConsistent s = true := by
  obtain ⟨h1, h2, h3, h4, h5, h6, h7, h8, h9, h10, h11, h12⟩ := reachable_inv hr
  unfold partyConsistent
  simp only [Bool.and_eq_true]
  refine ⟨⟨?_, ?_⟩, ?_, ?_⟩
  · rw [List.all_eq_true]
    intro k hk
    by_cases hst : k.status = KStatus.inParty
    · obtain ⟨p, hp, hid⟩ := h7 k hk hst
      have hcnt := countP_one_of_pairwise partyKnightIds s.parties h9 p hp k.id hid
      rw [Bool.or_eq_true]
      exact Or.inr (beq_iff_eq.mpr hcnt)
    · simp only [Bool.or_eq_true, bne_iff_ne, ne_eq]
      exact Or.inl hst
  · rw [List.all_eq_true]
    intro c hc
    by_cases hst : c.status = CStatus.inParty
    · obtain ⟨p, hp, hid⟩ := h8 c hc hst
      have hcnt := countP_one_of_pairwise partyClientIds s.parties h10 p hp c.id hid
      rw [Bool.or_eq_true]
      exact Or.inr (beq_iff_eq.mpr hcnt)
    · simp only [Bool.or_eq_true, bne_iff_ne, ne_eq]
      exact Or.inl hst
  · exact snapshotsDisjointK_of_pairwise s.parties h9
  · exact snapshotsDisjointC_of_pairwise s.parties h10

/-- Witness for C8 at the reachable one-party state `exPartyState`. -/
theorem C8_witness : partyConsistent exPartyState = true :=
  C8_party_membership exPartyState reach_exPartyState

/-- `toggleSelection` never touches the knight roster. -/
theorem toggleSelection_knights (id : Nat) (t : ItemType) (s : AppState) :
    (toggleSelection id t s).knights = s.knights := by
  cases t with
  | knight =>
    cases hf : s.knights.find? (fun k => k.id == id) with
    | none => simp [toggleSelection, hf]
    | some k0 =>
      by_cases hst : k0.status ≠ KStatus.waiting <;>
        simp [toggleSelection, hf, hst]
  | client =>
    cases hf : s.clients.find? (fun c => c.id == id) with
    | none => simp [toggleSelection, hf]
    | some c0 =>
      by_cases hst : c0.status ≠ CStatus.waiting <;>
        simp [toggleSelection, hf, hst]

/-- `toggleSelection` never touches the client roster. -/
theorem toggleSelection_clients (id : Nat) (t : ItemType) (s : AppState) :
    (toggleSelection id t s).clients = s.clients := by
  cases t with
  | knight =>
    cases hf : s.knights.find? (fun k => k.id == id) with
    | none => simp [toggleSelection, hf]
    | some k0 =>
      by_cases hst : k0.status ≠ KStatus.waiting <;>
        simp [toggleSelection, hf, hst]
  | client =>
    cases hf : s.clients.find? (fun c => c.id == id) with
    | none => simp [toggleSelection, hf]
    | some c0 =>
      by_cases hst : c0.status ≠ CStatus.waiting <;>
        simp [toggleSelection, hf, hst]

/-- The duty toggle is a no-op on an `in-party` member of an id-nodup
roster. -/
theorem toggle_inparty_noop (s : AppState)
    (h1 : (s.knights.map (fun k => k.id)).Nodup) (k : Knight)
    (hk : k ∈ s.knights) (hst : k.status = KStatus.inParty) :
    handleToggleKnightStatus k.id s = s := by
  unfold handleToggleKnightStatus
  have hfix : ∀ x ∈ s.knights,
      (if x.id == k.id then
        if x.status = KStatus.waiting then { x with status := KStatus.offDuty }
        else if x.status = KStatus.offDuty then
          { x with status := KStatus.waiting }
        else x
      else x) = x := by
    intro x hx
    by_cases h : (x.id == k.id) = true
    · have hxk : x = k := knight_eq_of_id s.knights h1 hx hk (by simpa using h)
      subst hxk
      rw [if_pos h, if_neg (by rw [hst]; simp), if_neg (by rw [hst]; simp)]
    · rw [if_neg h]
  have hmap : s.knights.map (fun x =>
      if x.id == k.id then
        if x.status = KStatus.waiting then { x with status := KStatus.offDuty }
        else if x.status = KStatus.offDuty then
          { x with status := KStatus.waiting }
        else x
      else x) = s.knights := by
    rw [List.map_congr_left hfix]
    exact List.map_id' s.knights
  rw [hmap]

/-- Per-command edge analysis of a well-formed step from an invariant
state. -/
theorem stepEdges (s : AppState) (op : Op) (hinv : Inv s) (hw : WfOp op s) :
    (∀ k ∈ s.knights, ∀ k' ∈ (applyOp op s).knights, k'.id = k.id →
      k'.status = k.status ∨ knightEdgeB op k.status k'.status = true) ∧
    (∀ c ∈ s.clients, ∀ c' ∈ (applyOp op s).clients, c'.id = c.id →
      c'.status = c.status ∨ clientEdgeB op c.status c'.status = true) ∧
    (∀ item name job power, op = Op.updateKnight item name job power →
      ∀ k ∈ s.knights, ∀ k' ∈ (applyOp op s).knights, k'.id = k.id →
      k'.relayCount = k.relayCount) := by
  obtain ⟨h1, h2, h3, h4, h5, h6, h7, h8, h9, h10, h11, h12⟩ := hinv
  have knId : ∀ k ∈ s.knights, ∀ k' ∈ s.knights, k'.id = k.id → k' = k :=
    fun k hk k' hk' h => knight_eq_of_id s.knights h1 hk' hk h
  have clId : ∀ c ∈ s.clients, ∀ c' ∈ s.clients, c'.id = c.id → c' = c :=
    fun c hc c' hc' h => client_eq_of_id s.clients h2 hc' hc h
  cases op with
  | addKnight id name job power =>
    refine ⟨?_, ?_, ?_⟩
    · intro k hk k' hk' hid
      rcases List.mem_append.mp hk' with h | h
      · exact Or.inl (by rw [knId k hk k' h hid])
      · simp only [List.mem_singleton] at h
        subst h
        exact absurd hid.symm (hw.1 k hk)
    · intro c hc c' hc' hid
      exact Or.inl (by rw [clId c hc c' hc' hid])
    · intro item n j p heq
      simp at heq
  | addClient id name job power notes =>
    refine ⟨?_, ?_, ?_⟩
    · intro k hk k' hk' hid
      exact Or.inl (by rw [knId k hk k' hk' hid])
    · intro c hc c' hc' hid
      rcases List.mem_append.mp hc' with h | h
      · exact Or.inl (by rw [clId c hc c' h hid])
      · simp only [List.mem_singleton] at h
        subst h
        exact absurd hid.symm (hw.1 c hc)
    · intro item n j p heq
      simp at heq
  | updateKnight item name job power =>
    have hfid : ∀ x : Knight,
        ((fun k => if k.id == item.id then
          { item with name := name, job := job, power := power * 1000 }
          else k) x).id = x.id := by
      intro x
      beta_reduce
      by_cases h : (x.id == item.id) = true
      · rw [if_pos h]
        exact (by simpa using h : _ = item.id).symm
      · rw [if_neg h]
    refine ⟨?_, ?_, ?_⟩
    · intro k hk k' hk' hid
      left
      obtain ⟨x, hx, rfl⟩ := List.mem_map.mp hk'
      have hxk : x = k := knId k hk x hx (by rw [← hfid x]; exact hid)
      subst hxk
      beta_reduce
      by_cases h : (x.id == item.id) = true
      · have hxitem : x = item :=
          knight_eq_of_id s.knights h1 hx hw (by simpa using h)
        rw [if_pos h, hxitem]
      · rw [if_neg h]
    · intro c hc c' hc' hid
      exact Or.inl (by rw [clId c hc c' hc' hid])
    · intro item' n' j' p' heq
      injection heq with e1 e2 e3 e4
      subst e1
      subst e2
      subst e3
      subst e4
      intro k hk k' hk' hid
      obtain ⟨x, hx, rfl⟩ := List.mem_map.mp hk'
      have hxk : x = k := knId k hk x hx (by rw [← hfid x]; exact hid)
      subst hxk
      beta_reduce
      by_cases h : (x.id == item.id) = true
      · have hxitem : x = item :=
          knight_eq_of_id s.knights h1 hx hw (by simpa using h)
        rw [if_pos h, hxitem]
      · rw [if_neg h]
  | updateClient item name job power notes =>
    have hfid : ∀ x : Client,
        ((fun c => if c.id == item.id then
          { item with name := name, job := job, power := power * 1000, notes := notes } else c) x).id = x.id := by
      intro x
      beta_reduce
      by_cases h : (x.id == item.id) = true
      · rw [if_pos h]
        exact (by simpa using h : _ = item.id).symm
      · rw [if_neg h]
    refine ⟨?_, ?_, ?_⟩
    · intro k hk k' hk' hid
      exact Or.inl (by rw [knId k hk k' hk' hid])
    · intro c hc c' hc' hid
      left
      obtain ⟨x, hx, rfl⟩ := List.mem_map.mp hc'
      have hxc : x = c := clId c hc x hx (by rw [← hfid x]; exact hid)
      subst hxc
      beta_reduce
      by_cases h : (x.id == item.id) = true
      · have hxitem : x = item :=
          client_eq_of_id s.clients h2 hx hw (by simpa using h)
        rw [if_pos h, hxitem]
      · rw [if_neg h]
    · intro item' n' j' p' heq
      simp at heq
  | deleteKnight id =>
    refine ⟨?_, ?_, ?_⟩
    · intro k hk k' hk' hid
      have hk'mem := (List.filter_sublist s.knights).subset hk'
      exact Or.inl (by rw [knId k hk k' hk'mem hid])
    · intro c hc c' hc' hid
      exact Or.inl (by rw [clId c hc c' hc' hid])
    · intro item n j p heq
      simp at heq
  | deleteClient id =>
    refine ⟨?_, ?_, ?_⟩
    · intro k hk k' hk' hid
      exact Or.inl (by rw [knId k hk k' hk' hid])
    · intro c hc c' hc' hid
      have hc'mem := (List.filter_sublist s.clients).subset hc'
      exact Or.inl (by rw [clId c hc c' hc'mem hid])
    · intro item n j p heq
      simp at heq
  | toggleSel id t =>
    refine ⟨?_, ?_, ?_⟩
    · intro k hk k' hk' hid
      rw [show (applyOp (Op.toggleSel id t) s).knights = s.knights from
        toggleSelection_knights id t s] at hk'
      exact Or.inl (by rw [knId k hk k' hk' hid])
    · intro c hc c' hc' hid
      rw [show (applyOp (Op.toggleSel id t) s).clients = s.clients from
        toggleSelection_clients id t s] at hc'
      exact Or.inl (by rw [clId c hc c' hc' hid])
    · intro item n j p heq
      simp at heq
  | createParty =>
    by_cases hsel :
        (s.selectedKnightIds.isEmpty || s.selectedClientIds.isEmpty) = true
    · have hs : applyOp Op.createParty s = s := by
        show handleCreateParty s = s
        simp [handleCreateParty, hsel]
      rw [hs]
      refine ⟨?_, ?_, ?_⟩
      · intro k hk k' hk' hid
        exact Or.inl (by rw [knId k hk k' hk' hid])
      · intro c hc c' hc' hid
        exact Or.inl (by rw [clId c hc c' hc' hid])
      · intro item n j p heq
        simp at heq
    · have hs : (applyOp Op.createParty s).knights = s.knights.map (fun k =>
          if s.selectedKnightIds.contains k.id then
            { k with status := KStatus.inParty } else k) := by
        show (handleCreateParty s).knights = _
        simp only [handleCreateParty, Bool.not_eq_true] at hsel ⊢
        rw [hsel]
        simp
      have hsc : (applyOp Op.createParty s).clients = s.clients.map (fun c =>
          if s.selectedClientIds.contains c.id then
            { c with status := CStatus.inParty } else c) := by
        show (handleCreateParty s).clients = _
        simp only [handleCreateParty, Bool.not_eq_true] at hsel ⊢
        rw [hsel]
        simp
      have hfkid : ∀ x : Knight,
          ((fun k => if s.selectedKnightIds.contains k.id then
            { k with status := KStatus.inParty } else k) x).id = x.id := by
        intro x
        beta_reduce
        by_cases h : s.selectedKnightIds.contains x.id = true
        · rw [if_pos h]
        · rw [if_neg h]
      have hfcid : ∀ x : Client,
          ((fun c => if s.selectedClientIds.contains c.id then
            { c with status := CStatus.inParty } else c) x).id = x.id := by
        intro x
        beta_reduce
        by_cases h : s.selectedClientIds.contains x.id = true
        · rw [if_pos h]
        · rw [if_neg h]
      refine ⟨?_, ?_, ?_⟩
      · intro k hk k' hk' hid
        rw [hs] at hk'
        obtain ⟨x, hx, rfl⟩ := List.mem_map.mp hk'
        have hxk : x = k := knId k hk x hx (by rw [hfkid x] at hid; exact hid)
        subst hxk
        beta_reduce
        by_cases h : s.selectedKnightIds.contains x.id = true
        · rw [if_pos h]
          right
          show knightEdgeB Op.createParty x.status KStatus.inParty = true
          have hnin := h11 x.id ((contains_mem _ _).mp h) x hx rfl
          cases hxst : x.status with
          | waiting => decide
          | inParty => exact absurd hxst hnin
          | offDuty => decide
        · rw [if_neg h]
          exact Or.inl rfl
      · intro c hc c' hc' hid
        rw [hsc] at hc'
        obtain ⟨x, hx, rfl⟩ := List.mem_map.mp hc'
        have hxc : x = c := clId c hc x hx (by rw [hfcid x] at hid; exact hid)
        subst hxc
        beta_reduce
        by_cases h : s.selectedClientIds.contains x.id = true
        · rw [if_pos h]
          right
          show clientEdgeB Op.createParty x.status CStatus.inParty = true
          have hw' := h12 x.id ((contains_mem _ _).mp h) x hx rfl
          rw [hw']
          decide
        · rw [if_neg h]
          exact Or.inl rfl
      · intro item n j p heq
        simp at heq
  | completeMission pid =>
    cases hf : s.parties.find? (fun p => p.id == pid) with
    | none =>
      have hs : applyOp (Op.completeMission pid) s = s :=
        completeMission_of_find?_none pid s hf
      rw [hs]
      refine ⟨?_, ?_, ?_⟩
      · intro k hk k' hk' hid
        exact Or.inl (by rw [knId k hk k' hk' hid])
      · intro c hc c' hc' hid
        exact Or.inl (by rw [clId c hc c' hc' hid])
      · intro item n j p heq
        simp at heq
    | some p =>
      have hpmem : p ∈ s.parties := List.mem_of_find?_eq_some hf
      have heff := completeMission_of_find?_some pid s p hf
      have hfkid : ∀ x : Knight,
          ((fun k => if (p.knights.map (fun x => x.id)).contains k.id then
            { k with relayCount := k.relayCount + 1, status := KStatus.waiting } else k) x).id = x.id := by
        intro x
        beta_reduce
        by_cases h : (p.knights.map (fun x => x.id)).contains x.id = true
        · rw [if_pos h]
        · rw [if_neg h]
      have hfcid : ∀ x : Client,
          ((fun c => if (p.clients.map (fun x => x.id)).contains c.id then
            { c with status := CStatus.completed } else c) x).id = x.id := by
        intro x
        beta_reduce
        by_cases h : (p.clients.map (fun x => x.id)).contains x.id = true
        · rw [if_pos h]
        · rw [if_neg h]
      have heffk : (applyOp (Op.completeMission pid) s).knights =
          s.knights.map (fun k =>
            if (p.knights.map (fun x => x.id)).contains k.id then
              { k with relayCount := k.relayCount + 1, status := KStatus.waiting }
            else k) := by
        show (handleCompleteMission pid s).knights = _
        rw [heff]
      have heffc : (applyOp (Op.completeMission pid) s).clients =
          s.clients.map (fun c =>
            if (p.clients.map (fun x => x.id)).contains c.id then
              { c with status := CStatus.completed }
            else c) := by
        show (handleCompleteMission pid s).clients = _
        rw [heff]
      refine ⟨?_, ?_, ?_⟩
      · intro k hk k' hk' hid
        rw [heffk] at hk'
        obtain ⟨x, hx, rfl⟩ := List.mem_map.mp hk'
        have hxk : x = k := knId k hk x hx (by rw [hfkid x] at hid; exact hid)
        subst hxk
        beta_reduce
        by_cases h : (p.knights.map (fun x => x.id)).contains x.id = true
        · rw [if_pos h]
          right
          show knightEdgeB (Op.completeMission pid) x.status
            KStatus.waiting = true
          have hst := h5 p hpmem x hx ((contains_mem _ _).mp h)
          rw [hst]
          rfl
        · rw [if_neg h]
          exact Or.inl rfl
      · intro c hc c' hc' hid
        rw [heffc] at hc'
        obtain ⟨x, hx, rfl⟩ := List.mem_map.mp hc'
        have hxc : x = c := clId c hc x hx (by rw [hfcid x] at hid; exact hid)
        subst hxc
        beta_reduce
        by_cases h : (p.clients.map (fun x => x.id)).contains x.id = true
        · rw [if_pos h]
          right
          show clientEdgeB (Op.completeMission pid) x.status
            CStatus.completed = true
          have hst := h6 p hpmem x hx ((contains_mem _ _).mp h)
          rw [hst]
          rfl
        · rw [if_neg h]
          exact Or.inl rfl
      · intro item n j pw heq
        simp at heq
  | toggleKnightStatus id =>
    have hfid : ∀ x : Knight,
        ((fun k => if k.id == id then
          if k.status = KStatus.waiting then
            { k with status := KStatus.offDuty }
          else if k.status = KStatus.offDuty then
            { k with status := KStatus.waiting }
          else k
        else k) x).id = x.id := by
      intro x
      beta_reduce
      by_cases h : (x.id == id) = true <;>
        by_cases hx1 : x.status = KStatus.waiting <;>
        by_cases hx2 : x.status = KStatus.offDuty <;>
        simp [h, hx1, hx2]
    refine ⟨?_, ?_, ?_⟩
    · intro k hk k' hk' hid'
      rw [show (applyOp (Op.toggleKnightStatus id) s).knights =
        s.knights.map _ from rfl] at hk'
      obtain ⟨x, hx, rfl⟩ := List.mem_map.mp hk'
      have hxk : x = k := knId k hk x hx (by rw [hfid x] at hid'; exact hid')
      subst hxk
      beta_reduce
      by_cases h : (x.id == id) = true
      · rw [if_pos h]
        cases hxst : x.status with
        | waiting => exact Or.inr rfl
        | offDuty => exact Or.inr rfl
        | inParty => exact Or.inl hxst
      · rw [if_neg h]
        exact Or.inl rfl
    · intro c hc c' hc' hid'
      exact Or.inl (by rw [clId c hc c' hc' hid'])
    · intro item n j p heq
      simp at heq
  | importKnights now data =>
    refine ⟨?_, ?_, ?_⟩
    · intro k hk k' hk' hid
      by_cases he : (jsTrim data).isEmpty = true
      · rw [show (applyOp (Op.importKnights now data) s).knights = s.knights by
          show (handleImportKnights now data s).1.knights = s.knights
          simp [handleImportKnights, he]] at hk'
        exact Or.inl (by rw [knId k hk k' hk' hid])
      · by_cases hlen :
          (importLines now 0 (splitOnChar '\n' (jsTrim data))).1.length > 0
        · rw [show (applyOp (Op.importKnights now data) s).knights =
            s.knights ++
              (importLines now 0 (splitOnChar '\n' (jsTrim data))).1 by
            show (handleImportKnights now data s).1.knights = _
            simp only [handleImportKnights, Bool.not_eq_true] at he ⊢
            rw [he]
            simp [hlen]] at hk'
          rcases List.mem_append.mp hk' with h | h
          · exact Or.inl (by rw [knId k hk k' h hid])
          · obtain ⟨_, hlo, hhi⟩ :=
              importLines_mem now 0 (splitOnChar '\n' (jsTrim data)) k' h
            have hfr := hw (k'.id - now) (by omega)
            have : k'.id = now + (k'.id - now) := by omega
            exact absurd hid.symm (by rw [this]; exact hfr.1 k hk)
        · rw [show (applyOp (Op.importKnights now data) s).knights =
            s.knights by
            show (handleImportKnights now data s).1.knights = _
            simp only [handleImportKnights, Bool.not_eq_true] at he ⊢
            rw [he]
            simp [hlen]] at hk'
          exact Or.inl (by rw [knId k hk k' hk' hid])
    · intro c hc c' hc' hid
      have hcl : (applyOp (Op.importKnights now data) s).clients =
          s.clients := by
        show (handleImportKnights now data s).1.clients = s.clients
        by_cases he : (jsTrim data).isEmpty = true
        · simp [handleImportKnights, he]
        · simp only [handleImportKnights, Bool.not_eq_true] at he ⊢
          rw [he]
          by_cases hlen2 :
            (importLines now 0 (splitOnChar '\n' (jsTrim data))).1.length > 0
          · rw [if_pos hlen2]
            simp
          · rw [if_neg hlen2]
            simp
      rw [hcl] at hc'
      exact Or.inl (by rw [clId c hc c' hc' hid])
    · intro item n j p heq
      simp at heq

/-- Bridge from the per-entity edge analysis to the decidable
`statusStepOK`. -/
theorem statusStepOK_of (op : Op) (s : AppState)
    (hk : ∀ k ∈ s.knights, ∀ k' ∈ (applyOp op s).knights, k'.id = k.id →
      k'.status = k.status ∨ knightEdgeB op k.status k'.status = true)
    (hc : ∀ c ∈ s.clients, ∀ c' ∈ (applyOp op s).clients, c'.id = c.id →
      c'.status = c.status ∨ clientEdgeB op c.status c'.status = true)
    (hrel : ∀ item name job power, op = Op.updateKnight item name job power →
      ∀ k ∈ s.knights, ∀ k' ∈ (applyOp op s).knights, k'.id = k.id →
      k'.relayCount = k.relayCount)
    (htog : ∀ k ∈ s.knights, k.status = KStatus.inParty →
      handleToggleKnightStatus k.id s = s) :
    statusStepOK op s = true := by
  unfold statusStepOK
  simp only [Bool.and_eq_true]
  refine ⟨⟨⟨?_, ?_⟩, ?_⟩, ?_⟩
  · rw [List.all_eq_true]
    intro k hk'
    rw [List.all_eq_true]
    intro k' hk''
    by_cases hid : k'.id = k.id
    · rw [Bool.or_eq_true, Bool.or_eq_true]
      rcases hk k hk' k' hk'' hid with h | h
      · exact Or.inr (Or.inl (beq_iff_eq.mpr h))
      · exact Or.inr (Or.inr h)
    · rw [Bool.or_eq_true]
      exact Or.inl (by simpa [bne_iff_ne] using hid)
  · rw [List.all_eq_true]
    intro c hc'
    rw [List.all_eq_true]
    intro c' hc''
    by_cases hid : c'.id = c.id
    · rw [Bool.or_eq_true, Bool.or_eq_true]
      rcases hc c hc' c' hc'' hid with h | h
      · exact Or.inr (Or.inl (beq_iff_eq.mpr h))
      · exact Or.inr (Or.inr h)
    · rw [Bool.or_eq_true]
      exact Or.inl (by simpa [bne_iff_ne] using hid)
  · cases op with
    | updateKnight item name job power =>
      rw [List.all_eq_true]
      intro k hk'
      rw [List.all_eq_true]
      intro k' hk''
      by_cases hid : k'.id = k.id
      · rw [Bool.or_eq_true]
        exact Or.inr (beq_iff_eq.mpr
          (hrel item name job power rfl k hk' k' hk'' hid))
      · rw [Bool.or_eq_true]
        exact Or.inl (by simpa [bne_iff_ne] using hid)
    | addKnight id name job power => rfl
    | addClient id name job power notes => rfl
    | updateClient item name job power notes => rfl
    | deleteKnight id => rfl
    | deleteClient id => rfl
    | toggleSel id t => rfl
    | createParty => rfl
    | completeMission pid => rfl
    | toggleKnightStatus id => rfl
    | importKnights now data => rfl
  · rw [List.all_eq_true]
    intro k hk'
    by_cases hst : k.status = KStatus.inParty
    · rw [Bool.or_eq_true]
      exact Or.inr (decide_eq_true (htog k hk' hst))
    · rw [Bool.or_eq_true]
      exact Or.inl (by simpa [bne_iff_ne] using hst)

/-- C5 (amended): a well-formed command issued in a reachable state moves
every status only along the allowed edges — knight `waiting ↔ off-duty` via
the duty toggle, `waiting → in-party` and (amended) `off-duty → in-party` via
`formParty`, `in-party → waiting` via `completeMission`; client
`waiting → in-party` via `formParty`, `in-party → completed` via
`completeMission` — while edits never alter status or `relayCount` and the
duty toggle is a no-op on every `in-party` knight.  (The original claim
lacked the `off-duty → in-party` edge, see the counterexample trace.) -/
theorem C5_status_state_machine (s : AppState) (op : Op)
    (hr : Reachable s) (hw : WfOp op s) : statusStepOK op s = true := by
  have hinv := reachable_inv hr
  obtain ⟨he1, he2, he3⟩ := stepEdges s op hinv hw
  exact statusStepOK_of op s he1 he2 he3
    (fun k hk hst => toggle_inparty_noop s hinv.1 k hk hst)

/-- Witness for C5: forming the party at the reachable state `exSelState`
respects the amended edge set. -/
theorem C5_witness : statusStepOK Op.createParty exSelState = true :=
  C5_status_state_machine exSelState Op.createParty reach_exSelState trivial

/-- C5 counterexample: in the reachable state `exOffDutySelState` the still
selected knight 10 is `off-duty`, and `formParty` moves it to `in-party` — a
transition the claimed edge list does not contain. -/
theorem C5_counterexample :
    Reachable exOffDutySelState ∧
    exOffDutySelState.knights.map (fun k => (k.id, k.status)) =
      [(10, KStatus.offDuty)] ∧
    (applyOp Op.createParty exOffDutySelState).knights.map
      (fun k => (k.id, k.status)) = [(10, KStatus.inParty)] ∧
    claimedKnightEdgeB Op.createParty KStatus.offDuty KStatus.inParty =
      false := by
  refine ⟨?_, by decide, by decide, by decide⟩
  have r1 : Reachable (applyOp (Op.addKnight 10 ['a'] ['j'] 1) initState) :=
    Reachable.step _ _ Reachable.init (⟨by decide, by decide, by decide⟩ :
      KnightIdFresh 10 initState)
  have r2 := Reachable.step _ (Op.toggleSel 10 ItemType.knight) r1 trivial
  have r3 := Reachable.step _ (Op.toggleKnightStatus 10) r2 trivial
  have r4 : Reachable (applyOp (Op.addClient 20 ['c'] ['j'] 1 [])
      (applyOp (Op.toggleKnightStatus 10)
        (applyOp (Op.toggleSel 10 ItemType.knight)
          (applyOp (Op.addKnight 10 ['a'] ['j'] 1) initState)))) :=
    Reachable.step _ _ r3 (⟨by decide, by decide, by decide⟩ :
      ClientIdFresh 20 _)
  exact Reachable.step _ (Op.toggleSel 20 ItemType.client) r4 trivial

end Junsuya
